import Mathlib

/-
  Verification of the GopherJS build system excerpt.

  This file embeds, in Lean, the parts of the repository that the claims
  concern:
    * the package augmentation engine (augmentOverlayFile,
      augmentOriginalImports, augmentOriginalFile, pruneImports,
      finalizeRemovals, isOnlyImports, parseAndAugment) from the build
      package;
    * the original-file parser error handling (parserOriginalFiles);
    * the build session (Session.BuildPackage, Session.ImportResolverFor,
      Session.BuildFiles input validation) together with
      PackageData.FileModTime;
    * the generated runtime bootstrap ($getPackage, $initAllLinknames,
      $global.GopherJS.startup).

  Go AST values that the source mutates in place (nil-ing out slice slots,
  renaming identifiers) are represented as immutable values with `Option`
  slots; in-place loops become pointwise maps or folds, which is faithful
  because each Go loop iteration only reads and writes the slot it is
  visiting.
-/

set_option autoImplicit false

namespace GopherJS

/-! ## Go AST model

A minimal mirror of the `go/ast` shapes the augmentation code touches.
`Ident.hasObj` models whether the identifier's `Obj` field is non-nil
(i.e. it resolved to a local object rather than, say, a package name). -/

structure Ident where
  name : String
  hasObj : Bool := false
deriving Repr, DecidableEq

inductive Expr where
  | idExpr (x : Ident)
  | lit (v : Int)
  | call (fn : Expr) (args : List Expr)
  | sel (x : Expr) (field : String)
deriving Repr

mutual

/-- The qualifier names used by a `SelectorExpr` scan: mirrors the
`ast.Inspect` in `pruneImports` that deletes `unused[id.Name]` for every
`SelectorExpr` whose `X` is an `*ast.Ident` with `Obj == nil`. -/
def Expr.usedQualifiers : Expr → List String
  | .idExpr _ => []
  | .lit _ => []
  | .sel x _ =>
    (match x with
     | .idExpr i => if i.hasObj then [] else [i.name]
     | _ => []) ++ x.usedQualifiers
  | .call f args => f.usedQualifiers ++ usedQualifiersInList args

/-- The scan continued over an argument list (the recursive walk of
`ast.Inspect` over call arguments). -/
def usedQualifiersInList : List Expr → List String
  | [] => []
  | e :: es => e.usedQualifiers ++ usedQualifiersInList es

end

/-- Import declaration payload (`*ast.ImportSpec`): an optional explicit
name and the unquoted import path. -/
structure ImportData where
  name : Option String
  path : String
deriving Repr, DecidableEq

inductive GenTok where
  | importTok
  | constTok
  | varTok
  | typeTok
deriving Repr, DecidableEq

/-- A declaration specification (`ast.Spec`).  Directive comments attached
to the spec are carried as plain strings (the text of each comment line). -/
inductive Spec where
  | importSp (im : ImportData)
  | typeSp (name : String) (directives : List String) (ty : Expr)
  | valueSp (names : List (Option Ident)) (values : List (Option Expr))
      (directives : List String)
deriving Repr

/-- `*ast.FuncDecl`.  Receiver, type parameters, parameters and results are
carried so that `gopherjs:override-signature` can splice them; the body is a
list of statement expressions. -/
structure FuncDecl where
  name : String
  recv : Option String := none
  typeParams : List String := []
  params : List Expr := []
  results : List Expr := []
  body : List Expr := []
  directives : List String := []
deriving Repr

/-- `*ast.GenDecl`: a token plus nil-able spec slots. -/
structure GenDecl where
  tok : GenTok
  directives : List String := []
  specs : List (Option Spec)
deriving Repr

inductive Decl where
  | funcD (d : FuncDecl)
  | genD (g : GenDecl)
deriving Repr

/-- `*ast.File` restricted to what the augmentation code reads: the decl
slots.  `file.Imports` is kept in sync with the import specs appearing in
`file.Decls` by the parser and by every mutation in the source, so it is
represented as the derived list `File.importsList` below. -/
structure File where
  decls : List (Option Decl)
deriving Repr

def File.importsList (f : File) : List ImportData :=
  f.decls.flatMap fun od =>
    match od with
    | some (.genD g) =>
      g.specs.flatMap fun os =>
        match os with
        | some (.importSp im) => [im]
        | _ => []
    | _ => []

/-- The imports contributed by one spec list (the inner loop of
`File.importsList`, named so that it can be reasoned about on its own). -/
def importsOfSpecs (specs : List (Option Spec)) : List ImportData :=
  specs.flatMap fun os =>
    match os with
    | some (.importSp im) => [im]
    | _ => []

/-- The imports contributed by a decl list (`File.importsList` on the raw
list). -/
def importsOfDecls (ds : List (Option Decl)) : List ImportData :=
  ds.flatMap fun od =>
    match od with
    | some (.genD g) => importsOfSpecs g.specs
    | _ => []

/-! ## Kernel-computable string utilities

`String.splitOn`, `String.isPrefixOf` and `String.startsWith` are defined
by well-founded recursion over byte positions and do not reduce
definitionally, so the few string operations the embedding needs are
restated structurally over the character list.  They implement exactly
`strings.Split` (single-character separator), `strings.HasPrefix` and a
leading-slash test. -/

def splitOnCharAux (c : Char) : List Char → List Char → List String
  | [], acc => [String.mk acc.reverse]
  | x :: xs, acc =>
    if x = c then String.mk acc.reverse :: splitOnCharAux c xs []
    else splitOnCharAux c xs (x :: acc)

/-- `strings.Split s "/"` (also `String.splitOn "/"`). -/
def splitSlash (s : String) : List String := splitOnCharAux '/' s.data []

def listIsPrefix : List Char → List Char → Bool
  | [], _ => true
  | _ :: _, [] => false
  | a :: as, b :: bs => a = b && listIsPrefix as bs

/-- `strings.HasPrefix` / `String.isPrefixOf`. -/
def strHasPrefix (pre s : String) : Bool := listIsPrefix pre.data s.data

def startsWithSlash (s : String) : Bool :=
  match s.data with
  | c :: _ => c = '/'
  | [] => false

/-! ## astutil helpers

The `compiler/astutil` package is not part of the excerpt; the helpers the
augmentation code calls are modelled from the spec. -/

/-- Modelled from the spec: directive vocabulary recognized on declarations
(`gopherjs:keep-original`, `gopherjs:purge`, `gopherjs:override-signature`),
detected as a comment line attached to the node. -/
def hasGopherjsDirective (directives : List String) (d : String) : Bool :=
  directives.any (fun c => c = d)

/-- Modelled from the spec: `astutil.KeepOriginal`. -/
def keepOriginalDir (d : FuncDecl) : Bool :=
  hasGopherjsDirective d.directives "gopherjs:keep-original"

/-- Modelled from the spec: `astutil.OverrideSignature`. -/
def overrideSignatureDir (d : FuncDecl) : Bool :=
  hasGopherjsDirective d.directives "gopherjs:override-signature"

/-- Modelled from the spec: `astutil.Purge` on a declaration or spec. -/
def purgeDir (directives : List String) : Bool :=
  hasGopherjsDirective directives "gopherjs:purge"

/-- Modelled from the spec: `astutil.FuncReceiverKey` — the structural key
of the receiver type, empty for a plain function. -/
def funcReceiverKey (d : FuncDecl) : String :=
  match d.recv with
  | some r => r
  | none => ""

/-- Modelled from the spec: `astutil.FuncKey` — declaration identity keying
by string equality: receiver-type + selector for methods, bare name for
plain functions. -/
def funcKey (d : FuncDecl) : String :=
  match d.recv with
  | some r => r ++ "." ++ d.name
  | none => d.name

/-- Modelled from the spec: `astutil.ImportName` — the given name, or a
guess from the import path (its last element); dot and blank imports yield
the empty string, so they are never considered unused. -/
def importDataName (im : ImportData) : String :=
  let n :=
    match im.name with
    | some n => n
    | none => (splitSlash im.path).getLastD im.path
  if n = "_" ∨ n = "." then "" else n

/-- Directive comments attached to one spec slot (import specs carry none
in this model, and a nil slot has no comments). -/
def specDirective (pre : String) (os : Option Spec) : Bool :=
  match os with
  | some (.typeSp _ ds _) => ds.any (fun c => strHasPrefix pre c)
  | some (.valueSp _ _ ds) => ds.any (fun c => strHasPrefix pre c)
  | _ => false

/-- Directive comments attached to one decl slot. -/
def declDirective (pre : String) (od : Option Decl) : Bool :=
  match od with
  | some (.funcD d) => d.directives.any (fun c => strHasPrefix pre c)
  | some (.genD g) =>
    g.directives.any (fun c => strHasPrefix pre c) ||
    g.specs.any (specDirective pre)
  | none => false

/-- Modelled from the spec: `astutil.HasDirectivePrefix` — whether any
comment attached to a node of the file starts with the given prefix.
Comments are modelled as the directive strings attached to the surviving
declarations and specifications. -/
def fileHasDirective (f : File) (pre : String) : Bool :=
  f.decls.any (declDirective pre)

/-- Modelled from the spec: `astutil.Squeeze` — compact a slice, removing
the slots that were set to nil while preserving relative order. -/
def squeeze {α : Type} (l : List (Option α)) : List (Option α) :=
  l.filter (fun x => x.isSome)

/-! ## overrideInfo and the override map -/

structure OverrideInfo where
  keepOriginal : Bool := false
  purgeMethods : Bool := false
  overrideSignature : Option FuncDecl := none
deriving Repr

/-- The override map `map[string]overrideInfo`, as an association list with
Go map assignment (replace-or-append) semantics. -/
abbrev OvMap : Type := List (String × OverrideInfo)

def ovLookup (m : OvMap) (k : String) : Option OverrideInfo :=
  (List.find? (fun p => p.1 = k) m).map (·.2)

def ovInsert (m : OvMap) (k : String) (v : OverrideInfo) : OvMap :=
  if List.any m (fun p => p.1 = k) then
    List.map (fun p => if p.1 = k then (k, v) else p) m
  else
    m ++ [(k, v)]

def ovErase (m : OvMap) (k : String) : OvMap :=
  List.filter (fun p => ¬ (p.1 = k)) m

/-! ## finalizeRemovals

`finalizeRemovals` fully removes declarations, specifications and names
that were set to nil, squeezing each list.  The Go code guards each squeeze
by a changed-flag; squeezing an unchanged list is the identity, so the
file-level squeeze is applied unconditionally while the decl-level guard is
kept (it also controls whether an empty spec list deletes the decl). -/

def finalizeSpec : Option Spec → Option Spec
  | none => none
  | some (.valueSp names values ds) =>
    if names.any (fun n => n.isNone) then
      if (squeeze names).length = 0 then none
      else some (.valueSp (squeeze names) (squeeze values) ds)
    else some (.valueSp names values ds)
  | some s => some s

def finalizeDecl : Option Decl → Option Decl
  | none => none
  | some (.genD g) =>
    if (g.specs.map finalizeSpec).any (fun s => s.isNone) then
      if (squeeze (g.specs.map finalizeSpec)).length = 0 then none
      else some (.genD { g with specs := squeeze (g.specs.map finalizeSpec) })
    else some (.genD { g with specs := g.specs.map finalizeSpec })
  | some d => some d

def finalizeRemovals (f : File) : File :=
  { decls := squeeze (f.decls.map finalizeDecl) }

/-! ## pruneImports -/

/-- `isOnlyImports` determines if this file is empty except for imports.
A nil decl slot fails the `*ast.GenDecl` type assertion, so it counts as a
non-import declaration, exactly as in the source. -/
def isOnlyImports (f : File) : Bool :=
  f.decls.all fun od =>
    match od with
    | some (.genD g) =>
      match g.tok with
      | .importTok => true
      | _ => false
    | _ => false

/-- All qualifier names used anywhere in the file (the `ast.Inspect`
selector-expression scan over the whole file). -/
def File.usedQualifiers (f : File) : List String :=
  f.decls.flatMap fun od =>
    match od with
    | some (.funcD d) => (d.params ++ d.results ++ d.body).flatMap Expr.usedQualifiers
    | some (.genD g) =>
      g.specs.flatMap fun os =>
        match os with
        | some (.typeSp _ _ ty) => ty.usedQualifiers
        | some (.valueSp _ vs _) =>
          vs.flatMap fun ov =>
            match ov with
            | some e => e.usedQualifiers
            | none => []
        | _ => []
    | _ => []

/-- Go map assignment `m[k] = v` on an association list. -/
def mapAssign {β : Type} (m : List (String × β)) (k : String) (v : β) :
    List (String × β) :=
  if List.any m (fun p => p.1 = k) then
    List.map (fun p => if p.1 = k then (k, v) else p) m
  else
    m ++ [(k, v)]

/-- The `unused` map of `pruneImports`: import name to index into
`file.Imports`, for every import with a non-empty derived name. -/
def buildUnused (imps : List ImportData) : List (String × Nat) :=
  imps.enum.foldl
    (fun acc p =>
      let n := importDataName p.2
      if n ≠ "" then mapAssign acc n p.1 else acc)
    []

/-- Rewrite the import specs of the file in order, `g` receiving each
spec's global import index; returning `none` sets the spec slot to nil.
This models the source's simultaneous updates of `file.Decls` and the
aliased `file.Imports` nodes. -/
def mapSpecsImports (g : Nat → ImportData → Option ImportData) :
    List (Option Spec) → Nat → List (Option Spec) × Nat
  | [], i => ([], i)
  | os :: rest, i =>
    match os with
    | some (.importSp im) =>
      let (rest2, i2) := mapSpecsImports g rest (i + 1)
      ((match g i im with
        | some im2 => some (.importSp im2)
        | none => none) :: rest2, i2)
    | other =>
      let (rest2, i2) := mapSpecsImports g rest i
      (other :: rest2, i2)

def mapDeclsImports (g : Nat → ImportData → Option ImportData) :
    List (Option Decl) → Nat → List (Option Decl)
  | [], _ => []
  | od :: rest, i =>
    match od with
    | some (.genD gd) =>
      let (specs2, i2) := mapSpecsImports g gd.specs i
      some (.genD { gd with specs := specs2 }) :: mapDeclsImports g rest i2
    | other => other :: mapDeclsImports g rest i

def mapFileImports (f : File) (g : Nat → ImportData → Option ImportData) : File :=
  { decls := mapDeclsImports g f.decls 0 }

/-- The directives that force retention of an otherwise unused import. -/
def directivePrefixFor (path : String) : Option String :=
  if path = "unsafe" then some "//go:linkname "
  else if path = "embed" then some "//go:embed "
  else none

/-- The loop removing "unused imports" used for a directive: such an
entry's import name is set to the blank identifier and it is dropped from
the unused set; all other entries are kept.  `imps` is the import list
captured before any conversion (conversions never change paths). -/
def convertLoop (imps : List ImportData) :
    List (String × Nat) → File → File × List (String × Nat)
  | [], f => (f, [])
  | (n, i) :: rest, f =>
    let im := imps.getD i ⟨none, ""⟩
    match directivePrefixFor im.path with
    | some pre =>
      if fileHasDirective f pre then
        let f2 := mapFileImports f fun j im2 =>
          if j = i then some { im2 with name := some "_" } else some im2
        convertLoop imps rest f2
      else
        let (f3, rem) := convertLoop imps rest f
        (f3, (n, i) :: rem)
    | none =>
      let (f3, rem) := convertLoop imps rest f
      (f3, (n, i) :: rem)

/-- The `unused` name-to-index map of `pruneImports` after the selector
scan removed every used name. -/
def pruneUnused (f : File) : List (String × Nat) :=
  (buildUnused f.importsList).filter fun p => ¬ f.usedQualifiers.contains p.1

/-- The tail of `pruneImports` after the directive-conversion loop: remove
all remaining unused import specifications and finalize. -/
def pruneRemove (f2 : File) (rem : List (String × Nat)) : File :=
  if rem.isEmpty then f2
  else
    finalizeRemovals (mapFileImports f2 fun j im =>
      if (rem.map (·.2)).contains j then none else some im)

/-- `pruneImports` removes any unused imports from the file. -/
def pruneImports (f : File) : File :=
  if isOnlyImports f ∧ ¬ fileHasDirective f "//go:linkname " then
    -- The file is empty: remove all imports including any `.` or `_` imports.
    { decls := [] }
  else if (pruneUnused f).isEmpty then f
  else pruneRemove (convertLoop f.importsList (pruneUnused f) f).1
         (convertLoop f.importsList (pruneUnused f) f).2

/-! ## augmentOverlayFile -/

def collectSpecOverrides (purgeDecl : Bool) (m : OvMap) (os : Option Spec) : OvMap :=
  match os with
  | some (.typeSp n ds _) =>
    ovInsert m n { purgeMethods := purgeDecl || purgeDir ds }
  | some (.valueSp names _ _) =>
    names.foldl
      (fun acc onm =>
        match onm with
        | some nm => ovInsert acc nm.name {}
        | none => acc)
      m
  | _ => m

def collectDeclOverrides (m : OvMap) (od : Option Decl) : OvMap :=
  match od with
  | some (.funcD d) =>
    ovInsert m (funcKey d)
      { keepOriginal := keepOriginalDir d,
        overrideSignature := if overrideSignatureDir d then some d else none }
  | some (.genD g) =>
    g.specs.foldl (collectSpecOverrides (purgeDir g.directives)) m
  | none => m

/-- Whether a spec would insert the key `k` into the override map when
collected by `collectSpecOverrides`. -/
def specAddsKey (k : String) (os : Option Spec) : Bool :=
  match os with
  | some (.typeSp n _ _) => n = k
  | some (.valueSp names _ _) =>
    names.any fun onm =>
      match onm with
      | some nm => nm.name = k
      | none => false
  | _ => false

/-- Whether a declaration would insert the key `k` into the override map
when collected by `collectDeclOverrides`. -/
def declAddsKey (k : String) (od : Option Decl) : Bool :=
  match od with
  | some (.funcD d) => funcKey d = k
  | some (.genD g) => g.specs.any (specAddsKey k)
  | none => false

/-- A declaration slot holding a function declaration with the given
name. -/
def isFuncNamed (nm : String) (od : Option Decl) : Bool :=
  match od with
  | some (.funcD d) => d.name = nm
  | _ => false

def purgeOverlaySpec (purgeDecl : Bool) (os : Option Spec) : Option Spec :=
  match os with
  | some s =>
    let pSpec := purgeDecl ||
      (match s with
       | .typeSp _ ds _ => purgeDir ds
       | .valueSp _ _ ds => purgeDir ds
       | .importSp _ => false)
    if pSpec then none else some s
  | none => none

def purgeOverlayDecl (od : Option Decl) : Option Decl :=
  match od with
  | some (.funcD d) =>
    if purgeDir d.directives || overrideSignatureDir d then none else some (.funcD d)
  | some (.genD g) =>
    if purgeDir g.directives then none
    else some (.genD { g with specs := g.specs.map (purgeOverlaySpec false) })
  | none => none

def overlayDeclChanged (od : Option Decl) : Bool :=
  match od with
  | some (.funcD d) => purgeDir d.directives || overrideSignatureDir d
  | some (.genD g) =>
    purgeDir g.directives ||
    g.specs.any fun os =>
      match os with
      | some (.typeSp _ ds _) => purgeDir ds
      | some (.valueSp _ _ ds) => purgeDir ds
      | _ => false
  | none => false

/-- `augmentOverlayFile` collects compiler directives into the override map
and purges the overlay declarations that the directives remove. -/
def augmentOverlayFile (f : File) (m : OvMap) : File × OvMap :=
  (if f.decls.any overlayDeclChanged then
      pruneImports (finalizeRemovals ⟨f.decls.map purgeOverlayDecl⟩)
    else ⟨f.decls.map purgeOverlayDecl⟩,
   f.decls.foldl collectDeclOverrides m)

/-! ## augmentOriginalImports -/

/-- `augmentOriginalImports` redirects the `sync` import of a fixed
allow-list of standard packages to the non-concurrent shim, preserving
any import alias. -/
def augmentOriginalImports (importPath : String) (f : File) : File :=
  if importPath ∈ ["crypto/rand", "encoding/gob", "encoding/json", "expvar",
      "go/token", "log", "math/big", "math/rand", "regexp", "time"] then
    mapFileImports f fun _ im =>
      if im.path = "sync" then
        some { name := some (im.name.getD "sync"),
               path := "github.com/gopherjs/gopherjs/nosync" }
      else some im
  else f

/-! ## augmentOriginalFile -/

/-- Process one spec of an original file, also reporting whether the Go
code would set `anyChange`. -/
def augOrigSpecCh (m : OvMap) (os : Option Spec) : Option Spec × Bool :=
  match os with
  | some (.typeSp n ds ty) =>
    if (ovLookup m n).isSome then (none, true) else (some (.typeSp n ds ty), false)
  | some (.valueSp names values ds) =>
    if names.length = values.length then
      -- multi-value context, e.g. `var a, b = 2, foo()`: a removal also
      -- removes the value at the same position.
      let prs := (names.zip values).map fun p =>
        match p.1 with
        | some nm =>
          if (ovLookup m nm.name).isSome then ((none : Option Ident), (none : Option Expr))
          else p
        | none => p
      let changed := names.any fun onm =>
        match onm with
        | some nm => (ovLookup m nm.name).isSome
        | none => false
      (some (.valueSp (prs.map (·.1)) (prs.map (·.2)) ds), changed)
    else
      -- single-value context, e.g. `var a, b = foo()`: blank out removed
      -- names; remove the whole spec only when every name is blank.
      let names2 := names.map fun onm =>
        match onm with
        | some nm =>
          if (ovLookup m nm.name).isSome then some { nm with name := "_" } else some nm
        | none => none
      let nameRemoved := names.any fun onm =>
        match onm with
        | some nm => (ovLookup m nm.name).isSome
        | none => false
      if nameRemoved then
        let removeSp := names2.all fun onm =>
          match onm with
          | some nm => nm.name = "_"
          | none => true
        if removeSp then (none, true) else (some (.valueSp names2 values ds), false)
      else (some (.valueSp names2 values ds), false)
  | other => (other, false)

/-- Process one declaration of an original file against the override map,
also reporting whether the Go code would set `anyChange`. -/
def augOrigDeclCh (m : OvMap) (od : Option Decl) : Option Decl × Bool :=
  match od with
  | some (.funcD d) =>
    match ovLookup m (funcKey d) with
    | some info =>
      -- the standard library implementation of foo() becomes
      -- _gopherjs_original_foo() when keep-original is set
      let d1 := if info.keepOriginal then { d with name := "_gopherjs_original_" ++ d.name } else d
      match info.overrideSignature with
      | some overSig =>
        (some (.funcD ({ d1 with recv := overSig.recv,
                                 typeParams := overSig.typeParams,
                                 params := overSig.params,
                                 results := overSig.results })), true)
      | none =>
        if info.keepOriginal then (some (.funcD d1), true) else (none, true)
    | none =>
      -- check if the receiver has been purged; if so, remove the method too
      if (funcReceiverKey d).length > 0 then
        match ovLookup m (funcReceiverKey d) with
        | some info =>
          if info.purgeMethods then (none, true) else (some (.funcD d), false)
        | none => (some (.funcD d), false)
      else (some (.funcD d), false)
  | some (.genD g) =>
    let rs := g.specs.map (augOrigSpecCh m)
    (some (.genD { g with specs := rs.map (·.1) }), rs.any (·.2))
  | none => (none, false)

/-- `augmentOriginalFile` augments the source code of an original file
using the overrides collected from the overlay files. -/
def augmentOriginalFile (f : File) (m : OvMap) : File :=
  if (f.decls.map (augOrigDeclCh m)).any (·.2) then
    pruneImports (finalizeRemovals ⟨(f.decls.map (augOrigDeclCh m)).map (·.1)⟩)
  else ⟨(f.decls.map (augOrigDeclCh m)).map (·.1)⟩

/-! ## parseAndAugment

The parsing-and-merging pipeline of `parseAndAugment`, after the overlay
and original files have been parsed: collect overrides from the overlay
files, always drop the entry for `init`, rewrite original imports, apply
the overrides to every original file when any exist, and return overlays
followed by originals. -/

/-- The overlay-file loop of `parseAndAugment`: thread the override map
through `augmentOverlayFile` over every overlay file. -/
def augmentOverlayFiles (overlayFiles : List File) : List File × OvMap :=
  overlayFiles.foldl
    (fun (acc : List File × OvMap) f =>
      (acc.1 ++ [(augmentOverlayFile f acc.2).1], (augmentOverlayFile f acc.2).2))
    ([], [])

def parseAndAugment (importPath : String) (overlayFiles originalFiles : List File) :
    List File :=
  if (ovErase (augmentOverlayFiles overlayFiles).2 "init").length > 0 then
    (augmentOverlayFiles overlayFiles).1 ++
      (originalFiles.map (augmentOriginalImports importPath)).map
        (fun f => augmentOriginalFile f
          (ovErase (augmentOverlayFiles overlayFiles).2 "init"))
  else
    (augmentOverlayFiles overlayFiles).1 ++
      originalFiles.map (augmentOriginalImports importPath)

/-! ## parserOriginalFiles

Error handling of the original-file parsing loop.  The outcome of
`parser.ParseFile` on each file is supplied by an oracle: a success, a
`scanner.ErrorList`, some other error, or a failure of
`buildutil.OpenFile`. -/

structure PError where
  pos : Nat
  msg : String
deriving Repr, DecidableEq

inductive ParseOutcome where
  | parsed (f : File)
  | scanErrors (es : List PError)
  | plainError (msg : String)
  | openError (msg : String)

inductive BuildFailure where
  | openFailure (msg : String)
  | parseFailure (es : List PError)
deriving Repr

/-- The cap applied to one file's `scanner.ErrorList`: more than ten
entries are truncated to the first ten plus a synthetic marker placed at
the position of the tenth error. -/
def capScanErrors (es : List PError) : List PError :=
  if es.length > 10 then
    es.take 10 ++ [⟨(es.getD 9 ⟨0, ""⟩).pos, "too many errors"⟩]
  else es

def parserOriginalFilesAux (parse : String → ParseOutcome) :
    List String → List File → List PError →
    Except BuildFailure (List File × List PError)
  | [], files, errList => .ok (files, errList)
  | name :: rest, files, errList =>
    match parse name with
    | .openError m => .error (.openFailure m)
    | .parsed f => parserOriginalFilesAux parse rest (files ++ [f]) errList
    | .scanErrors list =>
      parserOriginalFilesAux parse rest files (errList ++ capScanErrors list)
    | .plainError m => parserOriginalFilesAux parse rest files (errList ++ [⟨0, m⟩])

/-- `parserOriginalFiles` loads and parses the original files to augment;
a non-empty accumulated error list fails the build with that list. -/
def parserOriginalFiles (parse : String → ParseOutcome) (goFiles : List String) :
    Except BuildFailure (List File) :=
  match parserOriginalFilesAux parse goFiles [] [] with
  | .error e => .error e
  | .ok (files, errList) =>
    if errList.isEmpty then .ok files else .error (.parseFailure errList)

/-! ## Build session: PackageData, BuildPackage, ImportResolverFor

Machine time is modelled as `Nat`; `time.After` is `<` on the values. -/

structure JSFile where
  path : String
  modTime : Nat
deriving Repr, DecidableEq

/-- `packageData.PackageData`, restricted to the fields `BuildPackage`
reads: import path, directory, file lists and the mutable `SrcModTime`. -/
structure PackageData where
  importPath : String
  dir : String
  goFiles : List String
  jsFiles : List JSFile
  imports : List String
  srcModTime : Nat
deriving Repr, DecidableEq

structure Archive where
  importPath : String
  fromCache : Bool
deriving Repr, DecidableEq

/-- The session-independent world `BuildPackage` runs against. -/
structure BuildEnv where
  /-- Modelled from the spec: `xctx.Import` (the `build/context` package is
  not in the excerpt) — package resolution returns a freshly created
  `PackageData` for an import path; for a package resolved from disk its
  `srcModTime` field starts at the zero time. -/
  pkgOf : String → PackageData
  /-- `getExeModTime`: the toolchain binary's own modification time,
  computed once per process. -/
  exeMod : Nat
  /-- The modification times `buildutil.ReadDir` reports for the files of a
  package directory (total: the logged error fallbacks do not occur). -/
  dirMtime : String → String → Nat
  /-- Modelled from the spec: the recorded build time of the on-disk cache
  entry for an import path under the session's fixed cache key
  configuration; `none` when no entry exists. -/
  cacheBuildTime : String → Option Nat
  noCache : Bool

/-- `PackageData.FileModTime`: the most recent modification time of the
package's own source files — all `.inc.js` files and the relevant
`GoFiles`. -/
def fileModTime (env : BuildEnv) (p : PackageData) : Nat :=
  let newest := p.jsFiles.foldl (fun acc f => if acc < f.modTime then f.modTime else acc) 0
  p.goFiles.foldl
    (fun acc file =>
      let t := env.dirMtime p.dir file
      if acc < t then t else acc)
    newest

/-- The session state: the in-memory archive cache, plus a log of
the import paths passed to the black-box front-end `compiler.Compile`. -/
structure SessionSt where
  upToDate : List (String × Archive)
  compiles : List String
deriving Repr, DecidableEq

def lookupArchive (st : SessionSt) (p : String) : Option Archive :=
  (st.upToDate.find? (fun q => q.1 = p)).map (·.2)

def setArchive (st : SessionSt) (p : String) (a : Archive) : SessionSt :=
  { st with upToDate := mapAssign st.upToDate p a }

/-- Modelled from the spec: `BuildCache.LoadArchive` — an entry is valid
for reuse only if its recorded build time is strictly after the computed
source modification time. -/
def loadArchive (env : BuildEnv) (p : String) (srcModTime : Nat) : Option Archive :=
  match env.cacheBuildTime p with
  | some bt => if srcModTime < bt then some ⟨p, true⟩ else none
  | none => none

/-- The imported-packages loop of `BuildPackage`: build each import and
fold its resulting `SrcModTime` into the accumulator via `time.After`. -/
def runImports (build : String → SessionSt → Option (Nat × SessionSt)) :
    List String → Nat → SessionSt → Option (Nat × SessionSt)
  | [], m, st => some (m, st)
  | q :: rest, m, st =>
    match build q st with
    | none => none
    | some (mq, st1) => runImports build rest (if m < mq then mq else m) st1

/-- `Session.BuildPackage`, with a fuel bound standing in for
nontermination on cyclic import graphs (which the resolver would reject).
Returns the archive, the (possibly mutated) `PackageData`, and the new
session state.  An up-to-date in-memory archive is returned immediately,
leaving the passed package's `srcModTime` untouched — exactly as the early
return in the source skips the mod-time recomputation. -/
def buildPackage (env : BuildEnv) : Nat → PackageData → SessionSt →
    Option (Archive × PackageData × SessionSt)
  | 0, _, _ => none
  | fuel + 1, pkg, st =>
    match lookupArchive st pkg.importPath with
    | some a => some (a, pkg, st)
    | none =>
      let m1 := if pkg.srcModTime < env.exeMod then env.exeMod else pkg.srcModTime
      match runImports
          (fun q s =>
            (buildPackage env fuel (env.pkgOf q) s).map fun r =>
              (r.2.1.srcModTime, r.2.2))
          (pkg.imports.filter (fun q => q != "unsafe")) m1 st with
      | none => none
      | some (m2, st2) =>
        let fm := fileModTime env pkg
        let m3 := if m2 < fm then fm else m2
        let pkg3 := { pkg with srcModTime := m3 }
        match (if env.noCache then none else loadArchive env pkg.importPath m3) with
        | some a => some (a, pkg3, setArchive st2 pkg.importPath a)
        | none =>
          let a : Archive := ⟨pkg.importPath, false⟩
          some (a, pkg3,
            { setArchive st2 pkg.importPath a with
                compiles := st2.compiles ++ [pkg.importPath] })

/-- `Session.ImportResolverFor`: the callback handed to the front end; it
returns the memoized archive when present and otherwise builds the import
path via `buildImportPathWithSrcDir` (a fresh `xctx.Import` plus
`BuildPackage`). -/
def importResolver (env : BuildEnv) (fuel : Nat) (path : String) (st : SessionSt) :
    Option (Archive × SessionSt) :=
  match lookupArchive st path with
  | some a => some (a, st)
  | none => (buildPackage env fuel (env.pkgOf path) st).map fun r => (r.1, r.2.2)

/-! ## Runtime bootstrap protocol -/

inductive RtEvent where
  | fetch (path : String)
  | synthesizeMethods
  | initLinknames (path : String)
  | initPackage (path : String)
  | flushConsole
deriving Repr, DecidableEq

structure RtPkg where
  hasInitLinknames : Bool
deriving Repr, DecidableEq

/-- The loader state: `$packages` (a JS object, i.e. an insertion-ordered
map) plus the observable trace of bootstrap steps. -/
structure RtState where
  packages : List (String × RtPkg)
  events : List RtEvent
deriving Repr, DecidableEq

/-- Modelled from the spec: a successful dynamic fetch of a package's
compiled unit registers that package (the loaded script's registration
call runs before the await resumes); a failed fetch aborts startup and is
outside this model. -/
structure RtEnv where
  fetched : String → RtPkg

def rtFind (pkgs : List (String × RtPkg)) (p : String) : Option RtPkg :=
  (pkgs.find? (fun q => q.1 = p)).map (·.2)

def rtLookup (st : RtState) (p : String) : Option RtPkg :=
  rtFind st.packages p

/-- `$getPackage`: return the registered package, fetching it first if it
is not yet registered. -/
def getPackage (env : RtEnv) (name : String) (st : RtState) : RtPkg × RtState :=
  match rtLookup st name with
  | some p => (p, st)
  | none =>
    let p := env.fetched name
    (p, { packages := st.packages ++ [(name, p)],
          events := st.events ++ [RtEvent.fetch name] })

/-- `$initAllLinknames`: run the `$initLinknames` hook of every loaded
package that has one, in `$keys` (insertion) order. -/
def initAllLinknames (st : RtState) : RtState :=
  { st with
      events := st.events ++
        (st.packages.filter (fun q => q.2.hasInitLinknames)).map
          (fun q => RtEvent.initLinknames q.1) }

/-- `$global.GopherJS.startup`: the bootstrap entry point.
`$synthesizeMethods`, the `runtime` package's `$init`, `$go` on the main
package's `$init` (its initializer followed by its entry function) and
`$flushConsole` are external primitives of the generated runtime, recorded
as atomic events. -/
def startup (env : RtEnv) (mainPkgName : String) (st : RtState) : RtState :=
  let r1 := getPackage env mainPkgName st
  let st2 := { r1.2 with events := r1.2.events ++ [RtEvent.synthesizeMethods] }
  let st3 := initAllLinknames st2
  let r2 := getPackage env "runtime" st3
  let st4 := { r2.2 with events := r2.2.events ++ [RtEvent.initPackage "runtime"] }
  let st5 := { st4 with events := st4.events ++ [RtEvent.initPackage mainPkgName] }
  { st5 with events := st5.events ++ [RtEvent.flushConsole] }

/-! ## Session.BuildFiles input validation

`filepath.Clean`, `filepath.Dir`, `filepath.Join` and `filepath.IsAbs` for
slash-separated (non-Windows) paths, following their documented lexical
algorithms. -/

def cleanPath (p : String) : String :=
  if p = "" then "."
  else
    let rooted := startsWithSlash p
    let comps := splitSlash p
    let out := comps.foldl
      (fun acc c =>
        if c = "" ∨ c = "." then acc
        else if c = ".." then
          match acc with
          | [] => if rooted then [] else [".."]
          | top :: rest => if top = ".." then c :: top :: rest else rest
        else c :: acc)
      []
    let joined := String.intercalate "/" out.reverse
    if rooted then "/" ++ joined
    else if joined = "" then "." else joined

def isAbsPath (p : String) : Bool := startsWithSlash p

def joinPath (a b : String) : String :=
  if a = "" then (if b = "" then "" else cleanPath b)
  else if b = "" then cleanPath a
  else cleanPath (a ++ "/" ++ b)

def dirPath (p : String) : String :=
  let comps := splitSlash p
  if comps.length = 1 then "."
  else cleanPath (String.intercalate "/" comps.dropLast ++ "/")

/-- The `normalizedDir` closure of `Session.BuildFiles`. -/
def normalizedDir (cwd : String) (filename : String) : String :=
  let d := dirPath filename
  cleanPath (if isAbsPath d then d else joinPath cwd d)

/-- Computable byte-wise string comparison (the order `sort.Strings`
uses). -/
def charListLe : List Char → List Char → Bool
  | [], _ => true
  | _ :: _, [] => false
  | a :: as, b :: bs => if a = b then charListLe as bs else decide (a.val < b.val)

def strLe (a b : String) : Bool := charListLe a.data b.data

def insertSorted (x : String) : List String → List String
  | [] => [x]
  | y :: ys => if strLe x y then x :: y :: ys else y :: insertSorted x ys

def sortStrings (l : List String) : List String :=
  l.foldr insertSorted []

/-- The input validation prefix of `Session.BuildFiles` (everything before
any package is constructed or built): reject an empty file list, and
reject source files whose normalized directories are not all the same
(`dirList` is the sorted list of the distinct directories, as Go produces
by iterating the `dirSet` map and sorting).  An error return means nothing
is built. -/
def buildFilesCheck (filenames : List String) (cwd : String) : Except String Unit :=
  if filenames.length = 0 then Except.error "no input sources are provided"
  else
    let dirList := sortStrings ((filenames.map (normalizedDir cwd)).dedup)
    if dirList.length ≠ 1 then
      Except.error ("named files must all be in one directory; have: " ++
        String.intercalate ", " dirList)
    else Except.ok ()

/-! ## Concrete instances used by the claim theorems -/

/-- The diamond import graph: R imports A and B; A and B both import P. -/
def diamondPkg (p : String) : PackageData :=
  if p = "R" then
    { importPath := "R", dir := "R", goFiles := ["r.go"], jsFiles := [],
      imports := ["A", "B"], srcModTime := 0 }
  else if p = "A" then
    { importPath := "A", dir := "A", goFiles := ["a.go"], jsFiles := [],
      imports := ["P"], srcModTime := 0 }
  else if p = "B" then
    { importPath := "B", dir := "B", goFiles := ["b.go"], jsFiles := [],
      imports := ["P"], srcModTime := 0 }
  else
    { importPath := p, dir := p, goFiles := ["p.go"], jsFiles := [],
      imports := [], srcModTime := 0 }

/-- C1 failing input: every package has an on-disk cache entry recorded at
time 50; P's source file was then touched (mod time 100) while all other
files are older (mod time 10). -/
def envC1 : BuildEnv :=
  { pkgOf := diamondPkg
    exeMod := 0
    dirMtime := fun d _ => if d = "P" then 100 else 10
    cacheBuildTime := fun _ => some 50
    noCache := false }

/-- The diamond with caching disabled (C7 witness environment). -/
def envC7 : BuildEnv := { envC1 with noCache := true }

def rankC7 (p : String) : Nat :=
  if p = "R" then 2 else if p = "A" ∨ p = "B" then 1 else 0

/-- The session invariant behind at-most-once compilation: the compile log
has no duplicates and every compiled path has an in-memory archive. -/
def sessionInv (st : SessionSt) : Prop :=
  st.compiles.Nodup ∧ ∀ x ∈ st.compiles, lookupArchive st x ≠ none

/-- How a `BuildPackage` run may change the session state: existing
in-memory archives are preserved verbatim, every new archive satisfies the
bound `P`, and the compile log grows by a duplicate-free suffix of paths
that had no in-memory archive before, were archived by the run, and
satisfy `P`. -/
def growsBy (P : String → Prop) (st st2 : SessionSt) : Prop :=
  (∀ x a0, lookupArchive st x = some a0 → lookupArchive st2 x = some a0) ∧
  (∀ x, lookupArchive st2 x ≠ none → lookupArchive st x ≠ none ∨ P x) ∧
  ∃ Δ, st2.compiles = st.compiles ++ Δ ∧ Δ.Nodup ∧
    ∀ x ∈ Δ, lookupArchive st x = none ∧ lookupArchive st2 x ≠ none ∧ P x

/-- C6 counterexample oracle: a package with two source files, each
producing eleven scanner errors. -/
def parseC6 : String → ParseOutcome := fun name =>
  if name = "a.go" then .scanErrors ((List.range 11).map fun i => ⟨i, "syntax error"⟩)
  else if name = "b.go" then .scanErrors ((List.range 11).map fun i => ⟨i, "syntax error"⟩)
  else .parsed ⟨[]⟩

def failureLen : Except BuildFailure (List File) → Nat
  | .error (.parseFailure es) => es.length
  | _ => 0

/-- One file's contribution to the reported error list. -/
def fileErrContribution (o : ParseOutcome) : List PError :=
  match o with
  | .scanErrors es => capScanErrors es
  | .plainError m => [⟨0, m⟩]
  | _ => []

def isOpenError : ParseOutcome → Bool
  | .openError _ => true
  | _ => false

/-- C6 witness oracle: a single file with twelve scanner errors. -/
def parseC6W : String → ParseOutcome := fun name =>
  if name = "c.go" then .scanErrors ((List.range 12).map fun i => ⟨i, "bad token"⟩)
  else .parsed ⟨[]⟩

/-- C4 counterexample: a file holding nothing but an `embed` import, with a
`//go:embed` directive attached to the import declaration and no
`//go:linkname` directive. -/
def fileEmbedOnly : File :=
  ⟨[some (.genD { tok := .importTok, directives := ["//go:embed data.txt"],
                  specs := [some (.importSp ⟨none, "embed"⟩)] })]⟩

/-- C4 witness file: a `//go:embed` var declaration plus a function using
`strings`, with an otherwise-unused `embed` import at global index 1. -/
def fileEmbedUsed : File :=
  ⟨[some (.genD { tok := .importTok,
                  specs := [some (.importSp ⟨none, "strings"⟩),
                            some (.importSp ⟨none, "embed"⟩)] }),
    some (.genD { tok := .varTok, directives := ["//go:embed data.txt"],
                  specs := [some (.valueSp [some ⟨"data", false⟩]
                    [some (.lit 0)] [])] }),
    some (.funcD { name := "F",
                   body := [.sel (.idExpr ⟨"strings", false⟩) "Join"] })]⟩

/-- Scenario A overlay: `F` with the keep-original directive, body `2`. -/
def scenarioAOverlay : File :=
  ⟨[some (.funcD { name := "F", body := [.lit 2],
                   directives := ["gopherjs:keep-original"] })]⟩

/-- Scenario A original: `F` with body `1`. -/
def scenarioAOriginal : File :=
  ⟨[some (.funcD { name := "F", body := [.lit 1] })]⟩

/-- C8 witness inputs: type `T` is purged; method `T.keep` has its own
keep-original entry; method `T.gone` has none. -/
def mC8 : OvMap := [("T", { purgeMethods := true }), ("T.keep", { keepOriginal := true })]

def fC8 : File :=
  ⟨[some (.funcD { name := "gone", recv := some "T", body := [.lit 3] }),
    some (.funcD { name := "keep", recv := some "T", body := [.lit 4] })]⟩

/-! # Theorems -/

/-- C10: `Session.BuildFiles` validates its input before any compilation:
with an empty filename list it returns the error "no input sources are
provided" and builds nothing; with filenames that, after resolving relative
paths against the working directory and cleaning, lie in more than one
distinct directory, it returns the "named files must all be in one
directory" error listing those directories and builds nothing. -/
theorem C10_buildFiles_validation :
    (∀ cwd, buildFilesCheck [] cwd = Except.error "no input sources are provided") ∧
    (∀ (filenames : List String) (cwd : String), filenames ≠ [] →
      (sortStrings ((filenames.map (normalizedDir cwd)).dedup)).length ≠ 1 →
      buildFilesCheck filenames cwd =
        Except.error ("named files must all be in one directory; have: " ++
          String.intercalate ", "
            (sortStrings ((filenames.map (normalizedDir cwd)).dedup)))) := by
  constructor
  · intro cwd; rfl
  · intro fns cwd hne hlen
    have h0 : ¬ fns.length = 0 := by
      simpa [List.length_eq_zero] using hne
    simp only [buildFilesCheck, if_neg h0, if_pos hlen]

/-- C10 witness: one relative and one absolute file resolve to the two
directories `/w` and `/b`, and `BuildFiles` rejects them with the error
message listing both. -/
theorem C10_buildFiles_validation_witness :
    (["x.go", "/b/y.go"] ≠ ([] : List String)) ∧
    (sortStrings (((["x.go", "/b/y.go"].map (normalizedDir "/w"))).dedup)).length ≠ 1 ∧
    buildFilesCheck ["x.go", "/b/y.go"] "/w" =
      Except.error "named files must all be in one directory; have: /b, /w" := by
  refine ⟨by decide, by decide, ?_⟩
  have h := C10_buildFiles_validation.2 ["x.go", "/b/y.go"] "/w" (by decide) (by decide)
  rw [h]
  rfl

/-- C1 (failing input evaluation): in the diamond environment where P's
source file (mod time 100) is newer than every recorded cache build time
(50), a fresh session building R recompiles P, A and R — but reuses B's
stale on-disk cache entry (`fromCache = true`), because `BuildPackage`'s
early return for the already-built P leaves the freshly imported
`PackageData.srcModTime` at zero, so P's modification time never reaches
B's cache check.  Building B as the root of a fresh session does
invalidate it, as the claim demands. -/
theorem C1_stale_cache_reuse :
    buildPackage envC1 4 (envC1.pkgOf "R") ⟨[], []⟩ =
      some (⟨"R", false⟩,
        { importPath := "R", dir := "R", goFiles := ["r.go"], jsFiles := [],
          imports := ["A", "B"], srcModTime := 100 },
        ⟨[("P", ⟨"P", false⟩), ("A", ⟨"A", false⟩), ("B", ⟨"B", true⟩),
          ("R", ⟨"R", false⟩)],
         ["P", "A", "R"]⟩) ∧
    envC1.cacheBuildTime "B" = some 50 ∧
    fileModTime envC1 (envC1.pkgOf "P") = 100 ∧
    buildPackage envC1 4 (envC1.pkgOf "B") ⟨[], []⟩ =
      some (⟨"B", false⟩,
        { importPath := "B", dir := "B", goFiles := ["b.go"], jsFiles := [],
          imports := ["P"], srcModTime := 100 },
        ⟨[("P", ⟨"P", false⟩), ("B", ⟨"B", false⟩)],
         ["P", "B"]⟩) := by
  refine ⟨by decide, by decide, by decide, by decide⟩

/-- C6 counterexample: a package with two unparsable source files of eleven
errors each reports twenty-two entries, not a list capped to ten entries
plus one synthetic marker. -/
theorem C6_cap_counterexample :
    failureLen (parserOriginalFiles parseC6 ["a.go", "b.go"]) = 22 ∧ ¬ (22 ≤ 11) := by
  exact ⟨by decide, by decide⟩

theorem parserOriginalFilesAux_ok (parse : String → ParseOutcome) :
    ∀ (files : List String) (filesAcc : List File) (errAcc : List PError),
      (∀ f ∈ files, isOpenError (parse f) = false) →
      parserOriginalFilesAux parse files filesAcc errAcc =
        .ok (filesAcc ++ files.filterMap
              (fun f => match parse f with | .parsed g => some g | _ => none),
             errAcc ++ files.flatMap (fun f => fileErrContribution (parse f))) := by
  intro files
  induction files with
  | nil => intro filesAcc errAcc _; simp [parserOriginalFilesAux]
  | cons f rest ih =>
    intro filesAcc errAcc hopen
    have hf : isOpenError (parse f) = false := hopen f (List.mem_cons_self f rest)
    have hrest : ∀ g ∈ rest, isOpenError (parse g) = false := fun g hg =>
      hopen g (List.mem_cons_of_mem f hg)
    cases hp : parse f with
    | parsed g =>
      simp only [parserOriginalFilesAux, hp]
      rw [ih (filesAcc ++ [g]) errAcc hrest]
      simp [hp, fileErrContribution]
    | scanErrors es =>
      simp only [parserOriginalFilesAux, hp]
      rw [ih filesAcc (errAcc ++ capScanErrors es) hrest]
      simp [hp, fileErrContribution]
    | plainError msg =>
      simp only [parserOriginalFilesAux, hp]
      refine (ih filesAcc (errAcc ++ [{ pos := 0, msg := msg }]) hrest).trans ?_
      simp [hp, fileErrContribution]
    | openError msg =>
      rw [hp] at hf
      simp [isOpenError] at hf

/-- C6 (amended): the ten-plus-marker cap is applied per source file, not
to the whole package: each file's scanner error list is truncated to its
first ten entries plus one synthetic "too many errors" marker (so it never
exceeds eleven entries, and no error below the cap is dropped), and when
any file contributed errors the build for the package fails with the
concatenation of the per-file capped lists. -/
theorem C6_parse_errors_amended :
    (∀ (parse : String → ParseOutcome) (files : List String),
      (∀ f ∈ files, isOpenError (parse f) = false) →
      files.flatMap (fun f => fileErrContribution (parse f)) ≠ [] →
      parserOriginalFiles parse files =
        .error (.parseFailure (files.flatMap (fun f => fileErrContribution (parse f))))) ∧
    (∀ es : List PError,
      (capScanErrors es).length ≤ 11 ∧
      (es.length ≤ 10 → capScanErrors es = es) ∧
      (10 < es.length →
        capScanErrors es =
          es.take 10 ++ [⟨(es.getD 9 ⟨0, ""⟩).pos, "too many errors"⟩])) := by
  constructor
  · intro parse files hopen hne
    unfold parserOriginalFiles
    rw [parserOriginalFilesAux_ok parse files [] [] hopen]
    simp only [List.nil_append]
    cases h : files.flatMap (fun f => fileErrContribution (parse f)) with
    | nil => exact absurd h hne
    | cons e es => simp
  · intro es
    refine ⟨?_, ?_, ?_⟩
    · unfold capScanErrors
      by_cases h : es.length > 10
      · simp only [h, if_pos]
        simp [List.length_take]
      · simp only [if_neg h]
        omega
    · intro h
      unfold capScanErrors
      rw [if_neg (by omega)]
    · intro h
      unfold capScanErrors
      rw [if_pos (by omega)]

/-- C6 amended witness: a single file with twelve scanner errors fails the
build with exactly eleven reported entries (the first ten plus the
marker). -/
theorem C6_parse_errors_amended_witness :
    (∀ f ∈ ["c.go"], isOpenError (parseC6W f) = false) ∧
    (["c.go"].flatMap (fun f => fileErrContribution (parseC6W f)) ≠ []) ∧
    parserOriginalFiles parseC6W ["c.go"] =
      .error (.parseFailure
        (["c.go"].flatMap (fun f => fileErrContribution (parseC6W f)))) ∧
    failureLen (parserOriginalFiles parseC6W ["c.go"]) = 11 := by
  refine ⟨by decide, by decide, ?_, by decide⟩
  exact C6_parse_errors_amended.1 parseC6W ["c.go"] (by decide) (by decide)

/-- C9: every run of `$global.GopherJS.startup` performs its steps in
exactly this order, each potentially-fetching step awaited before the next
proceeds: resolve the entry package by name (fetching it if not
registered), finalize deferred dynamic-dispatch method tables across all
loaded packages (`$synthesizeMethods`), run all registered linkname hooks
(`$initAllLinknames`), initialize the runtime-support package (fetching it
if needed) via its `$init`, invoke the entry package's initializer and
designated entry function (`$go($mainPkg.$init, [])`), and finally flush
buffered console output. -/
theorem C9_startup_order (env : RtEnv) (n : String) (st : RtState) :
    (startup env n st).events =
      st.events
        ++ (if (rtFind st.packages n).isSome then [] else [RtEvent.fetch n])
        ++ [RtEvent.synthesizeMethods]
        ++ (((if (rtFind st.packages n).isSome then st.packages
              else st.packages ++ [(n, env.fetched n)]).filter
               (fun q => q.2.hasInitLinknames)).map
             (fun q => RtEvent.initLinknames q.1))
        ++ (if (rtFind (if (rtFind st.packages n).isSome then st.packages
                        else st.packages ++ [(n, env.fetched n)]) "runtime").isSome
            then [] else [RtEvent.fetch "runtime"])
        ++ [RtEvent.initPackage "runtime", RtEvent.initPackage n,
            RtEvent.flushConsole] := by
  unfold startup getPackage rtLookup initAllLinknames
  cases hm : rtFind st.packages n with
  | some p =>
    cases hr : rtFind st.packages "runtime" with
    | some q => simp [hm, hr, List.append_assoc]
    | none => simp [hm, hr, List.append_assoc]
  | none =>
    cases hr : rtFind (st.packages ++ [(n, env.fetched n)]) "runtime" with
    | some q => simp [hm, hr, List.append_assoc]
    | none => simp [hm, hr, List.append_assoc]

/-! ## Override map lemmas -/

theorem ovLookup_cons (p : String × OverrideInfo) (rest : OvMap) (k : String) :
    ovLookup (p :: rest) k = if p.1 = k then some p.2 else ovLookup rest k := by
  unfold ovLookup
  by_cases h : p.1 = k
  · rw [List.find?_cons_of_pos _ (by simp [h]), if_pos h]; rfl
  · rw [List.find?_cons_of_neg _ (by simp [h]), if_neg h]

theorem ovErase_cons (p : String × OverrideInfo) (rest : OvMap) (k : String) :
    ovErase (p :: rest) k =
      if p.1 = k then ovErase rest k else p :: ovErase rest k := by
  unfold ovErase
  by_cases h : p.1 = k <;> simp [List.filter_cons, h]

theorem ovLookup_erase_self (m : OvMap) (k : String) : ovLookup (ovErase m k) k = none := by
  induction m with
  | nil => rfl
  | cons p rest ih =>
    rw [ovErase_cons]
    by_cases h : p.1 = k
    · rw [if_pos h]; exact ih
    · rw [if_neg h, ovLookup_cons, if_neg h]; exact ih

theorem ovLookup_erase_ne (m : OvMap) (k k' : String) (h : k' ≠ k) :
    ovLookup (ovErase m k) k' = ovLookup m k' := by
  induction m with
  | nil => rfl
  | cons p rest ih =>
    rw [ovErase_cons]
    conv_rhs => rw [ovLookup_cons]
    by_cases h1 : p.1 = k
    · have h2 : ¬ p.1 = k' := by rw [h1]; exact fun e => h e.symm
      rw [if_pos h1, if_neg h2]; exact ih
    · rw [if_neg h1, ovLookup_cons]
      by_cases h2 : p.1 = k'
      · rw [if_pos h2, if_pos h2]
      · rw [if_neg h2, if_neg h2]; exact ih

theorem ovLookup_ne_nil (m : OvMap) (k : String) (v : OverrideInfo)
    (h : ovLookup m k = some v) : m ≠ [] := by
  intro e; subst e; simp [ovLookup] at h

theorem ovLookup_replace (m : OvMap) (k : String) (v : OverrideInfo)
    (ha : (List.any m fun p => p.1 = k) = true) :
    ovLookup (List.map (fun p => if p.1 = k then (k, v) else p) m) k = some v := by
  induction m with
  | nil => simp at ha
  | cons p rest ih =>
    by_cases hp : p.1 = k
    · rw [List.map_cons, if_pos hp, ovLookup_cons, if_pos rfl]
    · rw [List.map_cons, if_neg hp, ovLookup_cons, if_neg hp]
      apply ih
      simpa [List.any_cons, hp] using ha

theorem ovLookup_replace_ne (m : OvMap) (k k' : String) (v : OverrideInfo) (h : k' ≠ k) :
    ovLookup (List.map (fun p => if p.1 = k then (k, v) else p) m) k' = ovLookup m k' := by
  induction m with
  | nil => rfl
  | cons p rest ih =>
    conv_rhs => rw [ovLookup_cons]
    by_cases hp : p.1 = k
    · have h2 : ¬ p.1 = k' := by rw [hp]; exact fun e => h e.symm
      rw [List.map_cons, if_pos hp, ovLookup_cons, if_neg (fun e => h e.symm), if_neg h2]
      exact ih
    · rw [List.map_cons, if_neg hp, ovLookup_cons]
      by_cases h2 : p.1 = k'
      · rw [if_pos h2, if_pos h2]
      · rw [if_neg h2, if_neg h2]; exact ih

theorem ovLookup_append_one (m : OvMap) (k k' : String) (v : OverrideInfo) :
    ovLookup (m ++ [(k, v)]) k' =
      match ovLookup m k' with
      | some w => some w
      | none => if k = k' then some v else none := by
  induction m with
  | nil =>
    rw [List.nil_append, ovLookup_cons]
    by_cases h : k = k' <;> simp [h, ovLookup]
  | cons p rest ih =>
    rw [List.cons_append, ovLookup_cons, ovLookup_cons]
    by_cases hp : p.1 = k'
    · rw [if_pos hp, if_pos hp]
    · rw [if_neg hp, if_neg hp]; exact ih

theorem ovLookup_insert_self (m : OvMap) (k : String) (v : OverrideInfo) :
    ovLookup (ovInsert m k v) k = some v := by
  unfold ovInsert
  by_cases ha : (List.any m fun p => p.1 = k) = true
  · rw [if_pos ha]; exact ovLookup_replace m k v ha
  · rw [if_neg ha, ovLookup_append_one]
    have hnone : ovLookup m k = none := by
      induction m with
      | nil => rfl
      | cons p rest ih =>
        simp only [List.any_cons, Bool.or_eq_true, not_or] at ha
        rw [ovLookup_cons, if_neg (by simpa using ha.1)]
        exact ih (by simpa using ha.2)
    rw [hnone, if_pos rfl]

theorem ovLookup_insert_ne (m : OvMap) (k k' : String) (v : OverrideInfo) (h : k' ≠ k) :
    ovLookup (ovInsert m k v) k' = ovLookup m k' := by
  unfold ovInsert
  by_cases ha : (List.any m fun p => p.1 = k) = true
  · rw [if_pos ha]; exact ovLookup_replace_ne m k k' v h
  · rw [if_neg ha, ovLookup_append_one]
    cases hm : ovLookup m k' with
    | some w => rfl
    | none => rw [if_neg (fun e => h e.symm)]

/-! ## Predicate preservation through the removal machinery

`q` ranges over decl-slot predicates that are false on nil slots and on
general declarations — exactly the shape of "is a function declaration
such that ...". -/

theorem finalizeDecl_funcD (d : FuncDecl) :
    finalizeDecl (some (.funcD d)) = some (.funcD d) := rfl

theorem finalizeDecl_not_funcD (g : GenDecl) (d : FuncDecl) :
    finalizeDecl (some (.genD g)) ≠ some (.funcD d) := by
  simp only [finalizeDecl]
  split_ifs <;> simp

theorem q_finalizeDecl (q : Option Decl → Bool) (hqn : q none = false)
    (hqg : ∀ g, q (some (.genD g)) = false) (x : Option Decl) :
    q (finalizeDecl x) = q x := by
  match x with
  | none => rfl
  | some (.funcD d) => rfl
  | some (.genD g) =>
    rw [hqg g]
    simp only [finalizeDecl]
    split_ifs <;> first | exact hqn | exact hqg _

theorem countP_squeeze {α : Type} (q : Option α → Bool) (hqn : q none = false)
    (l : List (Option α)) : (squeeze l).countP q = l.countP q := by
  unfold squeeze
  rw [List.countP_filter]
  apply List.countP_congr
  intro a _
  match a with
  | none => simp [hqn]
  | some x => simp

theorem mem_squeeze_iff {α : Type} (x : α) (l : List (Option α)) :
    some x ∈ squeeze l ↔ some x ∈ l := by
  unfold squeeze
  rw [List.mem_filter]
  simp

theorem countP_finalize (q : Option Decl → Bool) (hqn : q none = false)
    (hqg : ∀ g, q (some (.genD g)) = false) (f : File) :
    (finalizeRemovals f).decls.countP q = f.decls.countP q := by
  unfold finalizeRemovals
  rw [countP_squeeze q hqn, List.countP_map]
  apply List.countP_congr
  intro a _
  rw [Function.comp_apply, q_finalizeDecl q hqn hqg a]

theorem funcD_mem_finalize (d : FuncDecl) (f : File) :
    some (.funcD d) ∈ (finalizeRemovals f).decls ↔ some (.funcD d) ∈ f.decls := by
  unfold finalizeRemovals
  rw [mem_squeeze_iff]
  constructor
  · intro h
    obtain ⟨y, hy, he⟩ := List.mem_map.mp h
    match y with
    | none => simp [finalizeDecl] at he
    | some (.funcD e) =>
      rw [finalizeDecl_funcD] at he
      rwa [← he]
    | some (.genD g) => exact absurd he (finalizeDecl_not_funcD g d)
  · intro h
    have := List.mem_map_of_mem finalizeDecl h
    rwa [finalizeDecl_funcD] at this

theorem mapDeclsImports_countP (g : Nat → ImportData → Option ImportData)
    (q : Option Decl → Bool)
    (hqg : ∀ gd, q (some (.genD gd)) = false) :
    ∀ (decls : List (Option Decl)) (i : Nat),
      (mapDeclsImports g decls i).countP q = decls.countP q := by
  intro decls
  induction decls with
  | nil => intro i; rfl
  | cons od rest ih =>
    intro i
    match od with
    | none =>
      simp only [mapDeclsImports]
      rw [List.countP_cons, List.countP_cons, ih]
    | some (.funcD d) =>
      simp only [mapDeclsImports]
      rw [List.countP_cons, List.countP_cons, ih]
    | some (.genD gd) =>
      simp only [mapDeclsImports]
      rw [List.countP_cons, List.countP_cons, ih]
      simp [hqg]

theorem mapDeclsImports_funcD_mem (g : Nat → ImportData → Option ImportData)
    (d : FuncDecl) :
    ∀ (decls : List (Option Decl)) (i : Nat),
      some (.funcD d) ∈ mapDeclsImports g decls i ↔ some (.funcD d) ∈ decls := by
  intro decls
  induction decls with
  | nil => intro i; simp [mapDeclsImports]
  | cons od rest ih =>
    intro i
    match od with
    | none =>
      simp only [mapDeclsImports, List.mem_cons]
      rw [ih]
    | some (.funcD e) =>
      simp only [mapDeclsImports, List.mem_cons]
      rw [ih]
    | some (.genD gd) =>
      simp only [mapDeclsImports, List.mem_cons]
      rw [ih]
      simp

theorem countP_mapFileImports (g : Nat → ImportData → Option ImportData)
    (q : Option Decl → Bool)
    (hqg : ∀ gd, q (some (.genD gd)) = false) (f : File) :
    (mapFileImports f g).decls.countP q = f.decls.countP q :=
  mapDeclsImports_countP g q hqg f.decls 0

theorem funcD_mem_mapFileImports (g : Nat → ImportData → Option ImportData)
    (d : FuncDecl) (f : File) :
    some (.funcD d) ∈ (mapFileImports f g).decls ↔ some (.funcD d) ∈ f.decls :=
  mapDeclsImports_funcD_mem g d f.decls 0

theorem convertLoop_countP (imps : List ImportData) (q : Option Decl → Bool)
    (hqg : ∀ gd, q (some (.genD gd)) = false) :
    ∀ (entries : List (String × Nat)) (f : File),
      (convertLoop imps entries f).1.decls.countP q = f.decls.countP q := by
  intro entries
  induction entries with
  | nil => intro f; rfl
  | cons e rest ih =>
    intro f
    obtain ⟨n, i⟩ := e
    simp only [convertLoop]
    split
    · next pre hd =>
      by_cases hf : fileHasDirective f pre = true
      · rw [if_pos hf, ih]
        exact countP_mapFileImports _ q hqg f
      · rw [if_neg hf]
        exact ih f
    · exact ih f

theorem convertLoop_funcD_mem (imps : List ImportData) (d : FuncDecl) :
    ∀ (entries : List (String × Nat)) (f : File),
      some (.funcD d) ∈ (convertLoop imps entries f).1.decls ↔
        some (.funcD d) ∈ f.decls := by
  intro entries
  induction entries with
  | nil => intro f; exact Iff.rfl
  | cons e rest ih =>
    intro f
    obtain ⟨n, i⟩ := e
    simp only [convertLoop]
    split
    · next pre hd =>
      by_cases hf : fileHasDirective f pre = true
      · rw [if_pos hf, ih]
        exact funcD_mem_mapFileImports _ d f
      · rw [if_neg hf]
        exact ih f
    · exact ih f

theorem isOnlyImports_no_funcD (f : File) (h : isOnlyImports f = true)
    (q : Option Decl → Bool) (hqn : q none = false)
    (hqg : ∀ gd, q (some (.genD gd)) = false) : f.decls.countP q = 0 := by
  rw [List.countP_eq_zero]
  intro a ha
  have hx := (List.all_eq_true.mp h) a ha
  match a with
  | none => simp at hx
  | some (.funcD d) => simp at hx
  | some (.genD gd) => simp [hqg]

theorem isOnlyImports_no_funcD_mem (f : File) (h : isOnlyImports f = true)
    (d : FuncDecl) : some (.funcD d) ∉ f.decls := by
  intro hm
  have hx := (List.all_eq_true.mp h) _ hm
  simp at hx

theorem countP_pruneImports (q : Option Decl → Bool) (hqn : q none = false)
    (hqg : ∀ gd, q (some (.genD gd)) = false) (f : File) :
    (pruneImports f).decls.countP q = f.decls.countP q := by
  unfold pruneImports
  split
  · next h1 =>
    have h0 := isOnlyImports_no_funcD f h1.1 q hqn hqg
    simpa using h0.symm
  · next h1 =>
    split
    · rfl
    · next h2 =>
      rcases hcl : convertLoop f.importsList (pruneUnused f) f with ⟨f2, rem⟩
      have hc := convertLoop_countP f.importsList q hqg (pruneUnused f) f
      rw [hcl] at hc
      unfold pruneRemove
      dsimp only at hc ⊢
      by_cases h3 : rem.isEmpty
      · rw [if_pos h3]; exact hc
      · rw [if_neg h3]
        rw [countP_finalize q hqn hqg, countP_mapFileImports _ q hqg]
        exact hc

theorem funcD_mem_pruneImports (d : FuncDecl) (f : File) :
    some (.funcD d) ∈ (pruneImports f).decls ↔
      (some (.funcD d) ∈ f.decls ∧ ¬ (isOnlyImports f = true ∧
        ¬ fileHasDirective f "//go:linkname " = true)) ∨
      (some (.funcD d) ∈ f.decls ∧ isOnlyImports f = false) := by
  constructor
  · intro h
    unfold pruneImports at h
    split at h
    · next h1 => simp at h
    · next h1 =>
      split at h
      · exact Or.inl ⟨h, h1⟩
      · next h2 =>
        rcases hcl : convertLoop f.importsList (pruneUnused f) f with ⟨f2, rem⟩
        rw [hcl] at h
        unfold pruneRemove at h
        dsimp only at h
        have hc := convertLoop_funcD_mem f.importsList d (pruneUnused f) f
        rw [hcl] at hc
        dsimp only at hc
        by_cases h3 : rem.isEmpty
        · rw [if_pos h3] at h
          exact Or.inl ⟨hc.mp h, h1⟩
        · rw [if_neg h3, funcD_mem_finalize, funcD_mem_mapFileImports] at h
          exact Or.inl ⟨hc.mp h, h1⟩
  · intro h
    have hmem : some (.funcD d) ∈ f.decls := by rcases h with ⟨h, _⟩ | ⟨h, _⟩ <;> exact h
    have hnot : ¬ (isOnlyImports f = true ∧ ¬ fileHasDirective f "//go:linkname " = true) := by
      rcases h with ⟨_, hx⟩ | ⟨_, hx⟩
      · exact hx
      · intro ⟨ho, _⟩
        exact absurd (hx ▸ ho) (by simp [hx])
    unfold pruneImports
    rw [if_neg hnot]
    split
    · exact hmem
    · rcases hcl : convertLoop f.importsList (pruneUnused f) f with ⟨f2, rem⟩
      unfold pruneRemove
      dsimp only
      have hc := convertLoop_funcD_mem f.importsList d (pruneUnused f) f
      rw [hcl] at hc
      dsimp only at hc
      by_cases h3 : rem.isEmpty
      · rw [if_pos h3]; exact hc.mpr hmem
      · rw [if_neg h3, funcD_mem_finalize, funcD_mem_mapFileImports]
        exact hc.mpr hmem

theorem isOnlyImports_false_of_funcD (f : File) (d : FuncDecl)
    (h : some (.funcD d) ∈ f.decls) : isOnlyImports f = false := by
  cases hx : isOnlyImports f
  · rfl
  · exact absurd h (isOnlyImports_no_funcD_mem f hx d)

theorem funcD_mem_pruneImports_of_mem (d : FuncDecl) (f : File)
    (h : some (.funcD d) ∈ f.decls) :
    some (.funcD d) ∈ (pruneImports f).decls :=
  (funcD_mem_pruneImports d f).mpr (Or.inr ⟨h, isOnlyImports_false_of_funcD f d h⟩)

theorem funcD_mem_of_mem_pruneImports (d : FuncDecl) (f : File)
    (h : some (.funcD d) ∈ (pruneImports f).decls) :
    some (.funcD d) ∈ f.decls := by
  rcases (funcD_mem_pruneImports d f).mp h with ⟨h, _⟩ | ⟨h, _⟩ <;> exact h

theorem funcD_mem_augmentOriginalImports (ip : String) (d : FuncDecl) (f : File) :
    some (.funcD d) ∈ (augmentOriginalImports ip f).decls ↔
      some (.funcD d) ∈ f.decls := by
  unfold augmentOriginalImports
  split
  · exact funcD_mem_mapFileImports _ d f
  · exact Iff.rfl

/-- A function declaration whose key has no override entry and whose
receiver key has no purging entry passes through unchanged, with no
change flagged when nothing matches. -/
theorem augOrigDeclCh_keep (m : OvMap) (d : FuncDecl)
    (h1 : ovLookup m (funcKey d) = none) (h2 : d.recv = none) :
    augOrigDeclCh m (some (.funcD d)) = (some (.funcD d), false) := by
  have hrk : funcReceiverKey d = "" := by unfold funcReceiverKey; rw [h2]
  simp [augOrigDeclCh, h1, hrk]

theorem augmentOriginalFile_mem_of (m : OvMap) (f : File) (x : Option Decl)
    (d' : FuncDecl) (hx : x ∈ f.decls)
    (ht : (augOrigDeclCh m x).1 = some (.funcD d')) :
    some (.funcD d') ∈ (augmentOriginalFile f m).decls := by
  have hmm : some (.funcD d') ∈ (f.decls.map (augOrigDeclCh m)).map (·.1) := by
    rw [List.map_map]
    exact ht ▸ List.mem_map_of_mem _ hx
  unfold augmentOriginalFile
  split
  · exact funcD_mem_pruneImports_of_mem d' _ ((funcD_mem_finalize d' _).mpr hmm)
  · exact hmm

/-- Every function declaration in the output of `augmentOriginalFile` is
the image of an input declaration slot. -/
theorem augmentOriginalFile_mem_image (m : OvMap) (f : File) (d' : FuncDecl)
    (h : some (.funcD d') ∈ (augmentOriginalFile f m).decls) :
    ∃ x ∈ f.decls, (augOrigDeclCh m x).1 = some (.funcD d') := by
  unfold augmentOriginalFile at h
  have hmm : some (.funcD d') ∈ (f.decls.map (augOrigDeclCh m)).map (·.1) := by
    split at h
    · exact (funcD_mem_finalize d' _).mp (funcD_mem_of_mem_pruneImports d' _ h)
    · exact h
  rw [List.map_map] at hmm
  obtain ⟨x, hx, he⟩ := List.mem_map.mp hmm
  exact ⟨x, hx, he⟩

/-- C5: the override entry keyed "init" is always discarded before the
original files are rewritten, so an original top-level `init` function
declaration survives `parseAndAugment` unchanged — no overlay can remove
or rename it. -/
theorem C5_init_never_suppressed (ip : String) (ovs ors : List File) (f : File)
    (fd : FuncDecl) (hf : f ∈ ors) (hd : some (.funcD fd) ∈ f.decls)
    (hn : fd.name = "init") (hr : fd.recv = none) :
    some (.funcD fd) ∈ (parseAndAugment ip ovs ors).flatMap (fun g => g.decls) := by
  have hkey : funcKey fd = "init" := by unfold funcKey; rw [hr, hn]
  have hlook : ovLookup (ovErase (augmentOverlayFiles ovs).2 "init") (funcKey fd) = none := by
    rw [hkey]; exact ovLookup_erase_self _ _
  have hd1 : some (.funcD fd) ∈ (augmentOriginalImports ip f).decls :=
    (funcD_mem_augmentOriginalImports ip fd f).mpr hd
  unfold parseAndAugment
  split
  · apply List.mem_flatMap.mpr
    refine ⟨augmentOriginalFile (augmentOriginalImports ip f)
      (ovErase (augmentOverlayFiles ovs).2 "init"), ?_, ?_⟩
    · exact List.mem_append_right _
        (List.mem_map_of_mem _ (List.mem_map_of_mem _ hf))
    · exact augmentOriginalFile_mem_of _ _ _ fd hd1
        (by rw [augOrigDeclCh_keep _ fd hlook hr])
  · apply List.mem_flatMap.mpr
    exact ⟨augmentOriginalImports ip f,
      List.mem_append_right _ (List.mem_map_of_mem _ hf), hd1⟩

/-- C5 witness: an overlay declaring `init` (plus an override of `G`) does
not remove or rename the original `init`. -/
theorem C5_init_never_suppressed_witness :
    (⟨[some (.funcD { name := "init", body := [.lit 1] }),
       some (.funcD { name := "G", body := [.lit 2] })]⟩ : File) ∈
      ([⟨[some (.funcD { name := "init", body := [.lit 1] }),
          some (.funcD { name := "G", body := [.lit 2] })]⟩] : List File) ∧
    some (.funcD { name := "init", body := [.lit 1] }) ∈
      (parseAndAugment "p"
        [⟨[some (.funcD { name := "init", body := [.lit 5] }),
           some (.funcD { name := "G", body := [.lit 7] })]⟩]
        [⟨[some (.funcD { name := "init", body := [.lit 1] }),
           some (.funcD { name := "G", body := [.lit 2] })]⟩]).flatMap
        (fun g => g.decls) := by
  refine ⟨List.mem_singleton.mpr rfl, ?_⟩
  exact C5_init_never_suppressed "p" _ _ _ _
    (List.mem_singleton.mpr rfl) (List.Mem.head _) rfl rfl

/-! ## C3: multi-value name/value pair removal -/

theorem squeeze_map_ite {α β : Type} (c : α → Bool) (g : α → β) (l : List α) :
    squeeze (l.map fun a => if c a then none else some (g a)) =
      (l.filter fun a => !(c a)).map (fun a => some (g a)) := by
  induction l with
  | nil => rfl
  | cons a rest ih =>
    simp only [List.map_cons, List.filter_cons]
    by_cases h : c a
    · simp only [h, if_true, Bool.not_true]
      simpa [squeeze, List.filter_cons] using ih
    · simp only [h, if_false, Bool.not_false]
      simp only [squeeze, List.filter_cons, Option.isSome_some, if_true] at *
      simp [ih]

theorem any_isNone_map_ite {α β : Type} (c : α → Bool) (g : α → β) (l : List α) :
    (l.map fun a => if c a then none else some (g a)).any (fun o => o.isNone) =
      l.any c := by
  induction l with
  | nil => rfl
  | cons a rest ih =>
    simp only [List.map_cons, List.any_cons, ih]
    by_cases h : c a <;> simp [h]

/-- The multi-value context of `augOrigSpecCh` (equal name and value
counts): each overridden name deletes its name/value pair in place. -/
theorem augOrigSpec_multi (m : OvMap) (sdirs : List String) (ns : List Ident)
    (vs : List Expr) (hlen : ns.length = vs.length) :
    augOrigSpecCh m (some (.valueSp (ns.map some) (vs.map some) sdirs)) =
      (some (.valueSp
        ((ns.zip vs).map fun p =>
          if (ovLookup m p.1.name).isSome then none else some p.1)
        ((ns.zip vs).map fun p =>
          if (ovLookup m p.1.name).isSome then none else some p.2)
        sdirs),
       ns.any fun n => (ovLookup m n.name).isSome) := by
  simp only [augOrigSpecCh, List.length_map, hlen, if_true]
  rw [Prod.mk.injEq]
  refine ⟨?_, ?_⟩
  · simp only [Option.some.injEq, Spec.valueSp.injEq]
    refine ⟨?_, ?_, trivial⟩
    · rw [List.zip_map, List.map_map, List.map_map]
      apply List.map_congr_left
      intro p _
      by_cases h : (ovLookup m p.1.name).isSome <;> simp [Prod.map, h]
    · rw [List.zip_map, List.map_map, List.map_map]
      apply List.map_congr_left
      intro p _
      by_cases h : (ovLookup m p.1.name).isSome <;> simp [Prod.map, h]
  · have hgen : ∀ l : List Ident,
        ((List.map some l).any fun onm =>
          match onm with
          | some nm => (ovLookup m nm.name).isSome
          | none => false) = l.any fun nm => (ovLookup m nm.name).isSome := by
      intro l
      induction l with
      | nil => rfl
      | cons a rest ih => simp only [List.map_cons, List.any_cons, ih]
    exact hgen ns

/-- C3: for an original multi-name value declaration whose names and
initializer expressions correspond 1:1 (e.g. `var X, Y = 1, sideEffect()`),
augmentation removes exactly the overridden name/value pairs: when no name
is overridden nothing changes; when every name is overridden the whole
declaration is removed; and when a strict subset is overridden, exactly
the overridden pairs are deleted while every non-overridden name stays
bound to its own (possibly side-effecting) initializer expression — never
are both a non-overridden name and its expression dropped. -/
theorem C3_value_pairs (m : OvMap) (ns : List Ident) (vs : List Expr)
    (sdirs gdirs : List String) (tok : GenTok)
    (hlen : ns.length = vs.length) (htok : tok ≠ GenTok.importTok) :
    augmentOriginalFile
        ⟨[some (.genD ⟨tok, gdirs,
          [some (.valueSp (ns.map some) (vs.map some) sdirs)]⟩)]⟩ m =
      if (ns.any fun n => (ovLookup m n.name).isSome) = false then
        ⟨[some (.genD ⟨tok, gdirs,
          [some (.valueSp (ns.map some) (vs.map some) sdirs)]⟩)]⟩
      else if (ns.all fun n => (ovLookup m n.name).isSome) = true then ⟨[]⟩
      else
        ⟨[some (.genD ⟨tok, gdirs,
          [some (.valueSp
            (((ns.zip vs).filter fun p => !(ovLookup m p.1.name).isSome).map
              (fun p => some p.1))
            (((ns.zip vs).filter fun p => !(ovLookup m p.1.name).isSome).map
              (fun p => some p.2))
            sdirs)]⟩)]⟩ := by
  have hspec := augOrigSpec_multi m sdirs ns vs hlen
  have hdecl : augOrigDeclCh m (some (.genD ⟨tok, gdirs,
      [some (.valueSp (ns.map some) (vs.map some) sdirs)]⟩)) =
      (some (.genD ⟨tok, gdirs,
        [some (.valueSp
          ((ns.zip vs).map fun p =>
            if (ovLookup m p.1.name).isSome then none else some p.1)
          ((ns.zip vs).map fun p =>
            if (ovLookup m p.1.name).isSome then none else some p.2)
          sdirs)]⟩),
       ns.any fun n => (ovLookup m n.name).isSome) := by
    simp only [augOrigDeclCh, List.map_cons, List.map_nil, hspec, List.any_cons,
      List.any_nil, Bool.or_false]
  have hzipany : ∀ (l1 : List Ident) (l2 : List Expr), l1.length = l2.length →
      (l1.zip l2).any (fun p => (ovLookup m p.1.name).isSome) =
        l1.any (fun n => (ovLookup m n.name).isSome) := by
    intro l1
    induction l1 with
    | nil => intro l2 h; rfl
    | cons a rest ih =>
      intro l2 h
      cases l2 with
      | nil => simp at h
      | cons b l2' =>
        simp only [List.zip_cons_cons, List.any_cons]
        rw [ih l2' (by simpa using h)]
  have hzipall : ∀ (l1 : List Ident) (l2 : List Expr), l1.length = l2.length →
      (l1.zip l2).all (fun p => (ovLookup m p.1.name).isSome) =
        l1.all (fun n => (ovLookup m n.name).isSome) := by
    intro l1
    induction l1 with
    | nil => intro l2 h; rfl
    | cons a rest ih =>
      intro l2 h
      cases l2 with
      | nil => simp at h
      | cons b l2' =>
        simp only [List.zip_cons_cons, List.all_cons]
        rw [ih l2' (by simpa using h)]
  by_cases hAny : (ns.any fun n => (ovLookup m n.name).isSome) = true
  · -- some name is overridden: the change pass runs
    rw [if_neg (by simp [hAny])]
    unfold augmentOriginalFile
    rw [if_pos (by
      simp only [List.map_cons, List.map_nil, hdecl, List.any_cons, List.any_nil,
        Bool.or_false]
      exact hAny)]
    simp only [List.map_cons, List.map_nil, hdecl]
    have hNany : (((ns.zip vs).map fun p =>
        if (ovLookup m p.1.name).isSome then none else some p.1).any
          fun o => o.isNone) = true := by
      simp only [any_isNone_map_ite]
      rw [hzipany ns vs hlen]
      exact hAny
    have hfinSpec : finalizeSpec (some (.valueSp
        ((ns.zip vs).map fun p =>
          if (ovLookup m p.1.name).isSome then none else some p.1)
        ((ns.zip vs).map fun p =>
          if (ovLookup m p.1.name).isSome then none else some p.2)
        sdirs)) =
        (if (((ns.zip vs).filter fun p => !(ovLookup m p.1.name).isSome).length = 0) then none
         else some (.valueSp
          (((ns.zip vs).filter fun p => !(ovLookup m p.1.name).isSome).map
            (fun p => some p.1))
          (((ns.zip vs).filter fun p => !(ovLookup m p.1.name).isSome).map
            (fun p => some p.2))
          sdirs)) := by
      simp only [finalizeSpec]
      rw [if_pos hNany]
      simp only [squeeze_map_ite]
      by_cases hz : (((ns.zip vs).filter fun p => !(ovLookup m p.1.name).isSome).length = 0)
      · rw [if_pos (by simpa using hz), if_pos hz]
      · rw [if_neg (by simpa using hz), if_neg hz]
    by_cases hAll : (ns.all fun n => (ovLookup m n.name).isSome) = true
    · -- every name overridden: the whole declaration vanishes
      rw [if_pos hAll]
      have hzero : (((ns.zip vs).filter fun p => !(ovLookup m p.1.name).isSome).length = 0) := by
        rw [List.length_eq_zero, List.filter_eq_nil_iff]
        intro p hp
        have hzall : ((ns.zip vs).all fun p => (ovLookup m p.1.name).isSome) = true := by
          rw [hzipall ns vs hlen]; exact hAll
        have hps := List.all_eq_true.mp hzall p hp
        simp [hps]
      have hfd : finalizeDecl (some (.genD ⟨tok, gdirs,
          [some (.valueSp
            ((ns.zip vs).map fun p =>
              if (ovLookup m p.1.name).isSome then none else some p.1)
            ((ns.zip vs).map fun p =>
              if (ovLookup m p.1.name).isSome then none else some p.2)
            sdirs)]⟩)) = none := by
        simp only [finalizeDecl, List.map_cons, List.map_nil, hfinSpec, if_pos hzero]
        simp [squeeze]
      have hfr : finalizeRemovals (⟨[some (.genD ⟨tok, gdirs,
          [some (.valueSp
            ((ns.zip vs).map fun p =>
              if (ovLookup m p.1.name).isSome then none else some p.1)
            ((ns.zip vs).map fun p =>
              if (ovLookup m p.1.name).isSome then none else some p.2)
            sdirs)]⟩)]⟩ : File) = ⟨[]⟩ := by
        unfold finalizeRemovals
        rw [List.map_cons, List.map_nil, hfd]
        rfl
      rw [hfr]
      rfl
    · -- a strict subset of the names is overridden
      rw [if_neg hAll]
      have hnz : ¬ (((ns.zip vs).filter fun p => !(ovLookup m p.1.name).isSome).length = 0) := by
        intro hz
        rw [List.length_eq_zero, List.filter_eq_nil_iff] at hz
        apply hAll
        rw [← hzipall ns vs hlen]
        rw [List.all_eq_true]
        intro p hp
        have hx := hz p hp
        simp only [Bool.not_eq_true, Bool.not_eq_false] at hx
        cases ho : ovLookup m p.1.name with
        | none => simp [ho] at hx
        | some w => simp [ho]
      have hfd : finalizeDecl (some (.genD ⟨tok, gdirs,
          [some (.valueSp
            ((ns.zip vs).map fun p =>
              if (ovLookup m p.1.name).isSome then none else some p.1)
            ((ns.zip vs).map fun p =>
              if (ovLookup m p.1.name).isSome then none else some p.2)
            sdirs)]⟩)) =
          some (.genD ⟨tok, gdirs,
            [some (.valueSp
              (((ns.zip vs).filter fun p => !(ovLookup m p.1.name).isSome).map
                (fun p => some p.1))
              (((ns.zip vs).filter fun p => !(ovLookup m p.1.name).isSome).map
                (fun p => some p.2))
              sdirs)]⟩) := by
        simp only [finalizeDecl, List.map_cons, List.map_nil, hfinSpec, if_neg hnz]
        simp
      have hfr : finalizeRemovals (⟨[some (.genD ⟨tok, gdirs,
          [some (.valueSp
            ((ns.zip vs).map fun p =>
              if (ovLookup m p.1.name).isSome then none else some p.1)
            ((ns.zip vs).map fun p =>
              if (ovLookup m p.1.name).isSome then none else some p.2)
            sdirs)]⟩)]⟩ : File) =
          ⟨[some (.genD ⟨tok, gdirs,
            [some (.valueSp
              (((ns.zip vs).filter fun p => !(ovLookup m p.1.name).isSome).map
                (fun p => some p.1))
              (((ns.zip vs).filter fun p => !(ovLookup m p.1.name).isSome).map
                (fun p => some p.2))
              sdirs)]⟩)]⟩ := by
        unfold finalizeRemovals
        rw [List.map_cons, List.map_nil, hfd]
        rfl
      rw [hfr]
      unfold pruneImports
      rw [if_neg (by
        intro hcon
        rcases hcon with ⟨h1, _⟩
        cases tok with
        | importTok => exact htok rfl
        | constTok => simp [isOnlyImports] at h1
        | varTok => simp [isOnlyImports] at h1
        | typeTok => simp [isOnlyImports] at h1)]
      rw [if_pos (by rfl)]
  · -- no name is overridden: no change at all
    have hAF : (ns.any fun n => (ovLookup m n.name).isSome) = false := by
      cases hx : (ns.any fun n => (ovLookup m n.name).isSome) with
      | false => rfl
      | true => exact absurd hx hAny
    rw [if_pos hAF]
    unfold augmentOriginalFile
    rw [if_neg (by
      simp only [List.map_cons, List.map_nil, hdecl, List.any_cons, List.any_nil,
        Bool.or_false]
      rw [hAF]
      simp)]
    simp only [List.map_cons, List.map_nil, hdecl]
    have hNid : ((ns.zip vs).map fun p =>
        if (ovLookup m p.1.name).isSome then none else some p.1) = ns.map some := by
      have hall : ∀ p ∈ ns.zip vs,
          (if (ovLookup m p.1.name).isSome then (none : Option Ident) else some p.1) =
            some p.1 := by
        intro p hp
        have h1 := List.any_eq_false.mp hAF p.1 (List.of_mem_zip hp).1
        simp only [Bool.not_eq_true] at h1
        rw [if_neg (by simp [h1])]
      rw [List.map_congr_left hall]
      have hmm : (ns.zip vs).map (fun p => some p.1) =
          ((ns.zip vs).map Prod.fst).map some := by
        rw [List.map_map]; rfl
      rw [hmm, List.map_fst_zip ns vs (le_of_eq hlen)]
    have hVid : ((ns.zip vs).map fun p =>
        if (ovLookup m p.1.name).isSome then none else some p.2) = vs.map some := by
      have hall : ∀ p ∈ ns.zip vs,
          (if (ovLookup m p.1.name).isSome then (none : Option Expr) else some p.2) =
            some p.2 := by
        intro p hp
        have h1 := List.any_eq_false.mp hAF p.1 (List.of_mem_zip hp).1
        simp only [Bool.not_eq_true] at h1
        rw [if_neg (by simp [h1])]
      rw [List.map_congr_left hall]
      have hmm : (ns.zip vs).map (fun p => some p.2) =
          ((ns.zip vs).map Prod.snd).map some := by
        rw [List.map_map]; rfl
      rw [hmm, List.map_snd_zip ns vs (le_of_eq hlen.symm)]
    rw [hNid, hVid]

/-- C3 witness (Scenario B): `var X, Y = 1, sideEffect()` with only `X`
overridden keeps `Y` bound to the `sideEffect()` call. -/
theorem C3_value_pairs_witness :
    ([⟨"X", false⟩, ⟨"Y", false⟩] : List Ident).length =
      ([Expr.lit 1, Expr.call (.idExpr ⟨"sideEffect", false⟩) []] : List Expr).length ∧
    GenTok.varTok ≠ GenTok.importTok ∧
    augmentOriginalFile
        ⟨[some (.genD ⟨GenTok.varTok, [],
          [some (.valueSp (([⟨"X", false⟩, ⟨"Y", false⟩] : List Ident).map some)
            (([Expr.lit 1, Expr.call (.idExpr ⟨"sideEffect", false⟩) []] : List Expr).map some)
            [])]⟩)]⟩
        [("X", {})] =
      ⟨[some (.genD ⟨GenTok.varTok, [],
        [some (.valueSp [some ⟨"Y", false⟩]
          [some (Expr.call (.idExpr ⟨"sideEffect", false⟩) [])] [])]⟩)]⟩ := by
  refine ⟨rfl, by decide, ?_⟩
  have h := C3_value_pairs [("X", {})] [⟨"X", false⟩, ⟨"Y", false⟩]
    [Expr.lit 1, Expr.call (.idExpr ⟨"sideEffect", false⟩) []] [] [] GenTok.varTok
    rfl (by decide)
  rw [h]
  rfl

/-! ## C8: purge propagation to methods -/

theorem listIsPrefix_append (l t : List Char) : listIsPrefix l (l ++ t) = true := by
  induction l with
  | nil => rfl
  | cons a as ih => simp [listIsPrefix, ih]

theorem strHasPrefix_append (p s : String) : strHasPrefix p (p ++ s) = true := by
  unfold strHasPrefix
  rw [String.data_append]
  exact listIsPrefix_append p.data s.data

/-- A method whose receiver type is purged and which has no own override
entry is removed, with the change flagged. -/
theorem augOrigDeclCh_purged (m : OvMap) (d : FuncDecl) (T : String)
    (i : OverrideInfo) (hrecv : d.recv = some T) (hTne : T ≠ "")
    (hk : ovLookup m (funcKey d) = none)
    (hTi : ovLookup m T = some i) (hpm : i.purgeMethods = true) :
    augOrigDeclCh m (some (.funcD d)) = (none, true) := by
  have hrk : funcReceiverKey d = T := by unfold funcReceiverKey; rw [hrecv]
  have hlen : T.length ≠ 0 := by
    intro h0
    apply hTne
    have hd : T.data = [] := List.length_eq_zero.mp h0
    exact String.ext (by simp [hd])
  simp [augOrigDeclCh, hk, hrk, hTi, hpm, Nat.pos_iff_ne_zero, hlen]

/-- A method with its own keep-original entry is renamed, not deleted. -/
theorem augOrigDeclCh_keepOriginal (m : OvMap) (d : FuncDecl) (j : OverrideInfo)
    (hk : ovLookup m (funcKey d) = some j) (hko : j.keepOriginal = true)
    (hsig : j.overrideSignature = none) :
    augOrigDeclCh m (some (.funcD d)) =
      (some (.funcD { d with name := "_gopherjs_original_" ++ d.name }), true) := by
  simp [augOrigDeclCh, hk, hko, hsig]

theorem augOrigDeclCh_sig (m : OvMap) (d : FuncDecl) (j : OverrideInfo) (o : FuncDecl)
    (hk : ovLookup m (funcKey d) = some j) (hs : j.overrideSignature = some o) :
    augOrigDeclCh m (some (.funcD d)) =
      (some (.funcD { (if j.keepOriginal then
          { d with name := "_gopherjs_original_" ++ d.name } else d) with
            recv := o.recv, typeParams := o.typeParams,
            params := o.params, results := o.results }), true) := by
  simp [augOrigDeclCh, hk, hs]

theorem augOrigDeclCh_removed (m : OvMap) (d : FuncDecl) (j : OverrideInfo)
    (hk : ovLookup m (funcKey d) = some j) (hko : j.keepOriginal = false)
    (hs : j.overrideSignature = none) :
    augOrigDeclCh m (some (.funcD d)) = (none, true) := by
  simp [augOrigDeclCh, hk, hko, hs]

theorem augOrigDeclCh_nokey_norecv (m : OvMap) (d : FuncDecl)
    (hk : ovLookup m (funcKey d) = none)
    (hr : ovLookup m (funcReceiverKey d) = none) :
    augOrigDeclCh m (some (.funcD d)) = (some (.funcD d), false) := by
  by_cases hl : 0 < (funcReceiverKey d).length <;>
    simp [augOrigDeclCh, hk, hr, hl]

theorem augOrigDeclCh_nokey_nopurge (m : OvMap) (d : FuncDecl) (info : OverrideInfo)
    (hk : ovLookup m (funcKey d) = none)
    (hr : ovLookup m (funcReceiverKey d) = some info)
    (hpm : info.purgeMethods = false) :
    augOrigDeclCh m (some (.funcD d)) = (some (.funcD d), false) := by
  by_cases hl : 0 < (funcReceiverKey d).length <;>
    simp [augOrigDeclCh, hk, hr, hpm, hl]

theorem augOrigDeclCh_nokey_purged (m : OvMap) (d : FuncDecl) (info : OverrideInfo)
    (hk : ovLookup m (funcKey d) = none)
    (hr : ovLookup m (funcReceiverKey d) = some info)
    (hpm : info.purgeMethods = true) (hl : 0 < (funcReceiverKey d).length) :
    augOrigDeclCh m (some (.funcD d)) = (none, true) := by
  simp [augOrigDeclCh, hk, hr, hpm, hl]

theorem augOrigDeclCh_nokey_short (m : OvMap) (d : FuncDecl)
    (hk : ovLookup m (funcKey d) = none)
    (hl : ¬ 0 < (funcReceiverKey d).length) :
    augOrigDeclCh m (some (.funcD d)) = (some (.funcD d), false) := by
  simp [augOrigDeclCh, hk, hl]

/-- Everything `augOrigDeclCh` can output as a function declaration:
either an untouched declaration with no override entry, a keep-original
rename, or an override-signature splice. -/
theorem augOrigDeclCh_funcD_image (m : OvMap) (x : Option Decl) (d' : FuncDecl)
    (h : (augOrigDeclCh m x).1 = some (.funcD d')) :
    ∃ e : FuncDecl, x = some (.funcD e) ∧
      ((ovLookup m (funcKey e) = none ∧ d' = e) ∨
       (∃ j, ovLookup m (funcKey e) = some j ∧ j.overrideSignature = none ∧
         j.keepOriginal = true ∧
         d' = { e with name := "_gopherjs_original_" ++ e.name }) ∨
       (∃ j o, ovLookup m (funcKey e) = some j ∧ j.overrideSignature = some o ∧
         d'.recv = o.recv)) := by
  match x with
  | none => simp [augOrigDeclCh] at h
  | some (.genD g) => simp [augOrigDeclCh] at h
  | some (.funcD e) =>
    refine ⟨e, rfl, ?_⟩
    cases hk : ovLookup m (funcKey e) with
    | some info =>
      cases hs : info.overrideSignature with
      | some o =>
        refine Or.inr (Or.inr ⟨info, o, rfl, hs, ?_⟩)
        rw [augOrigDeclCh_sig m e info o hk hs] at h
        simp only [Option.some.injEq, Decl.funcD.injEq] at h
        rw [← h]
      | none =>
        cases hko : info.keepOriginal with
        | true =>
          rw [augOrigDeclCh_keepOriginal m e info hk hko hs] at h
          simp only [Option.some.injEq, Decl.funcD.injEq] at h
          exact Or.inr (Or.inl ⟨info, by simp [hk], by simp [hs], by simp [hko],
            h.symm⟩)
        | false =>
          rw [augOrigDeclCh_removed m e info hk hko hs] at h
          simp at h
    | none =>
      refine Or.inl ⟨rfl, ?_⟩
      by_cases hl : 0 < (funcReceiverKey e).length
      · cases hr : ovLookup m (funcReceiverKey e) with
        | some info =>
          cases hpm : info.purgeMethods with
          | true =>
            rw [augOrigDeclCh_nokey_purged m e info hk hr hpm hl] at h
            simp at h
          | false =>
            rw [augOrigDeclCh_nokey_nopurge m e info hk hr hpm] at h
            simp only [Option.some.injEq, Decl.funcD.injEq] at h
            rw [h]
        | none =>
          rw [augOrigDeclCh_nokey_norecv m e hk hr] at h
          simp only [Option.some.injEq, Decl.funcD.injEq] at h
          rw [h]
      · rw [augOrigDeclCh_nokey_short m e hk hl] at h
        simp only [Option.some.injEq, Decl.funcD.injEq] at h
        rw [h]

/-- C8: purging a type removes every original method whose receiver
resolves to that type, except a method that has its own override entry —
its own override takes precedence (a keep-original method is renamed and
retained, not deleted by the purge). -/
theorem C8_purge_methods (m : OvMap) (f : File) (T : String) (i : OverrideInfo)
    (hT : ovLookup m T = some i) (hpm : i.purgeMethods = true) (hTne : T ≠ "")
    (hsig : ∀ p ∈ m, (match p.2.overrideSignature with
        | some o => !(o.recv == some T)
        | none => true) = true) :
    (∀ d : FuncDecl, d.recv = some T →
        strHasPrefix "_gopherjs_original_" d.name = false →
        ovLookup m (funcKey d) = none →
        augOrigDeclCh m (some (.funcD d)) = (none, true) ∧
        some (.funcD d) ∉ (augmentOriginalFile f m).decls) ∧
    (∀ d : FuncDecl, ∀ j : OverrideInfo, d.recv = some T →
        ovLookup m (funcKey d) = some j → j.keepOriginal = true →
        j.overrideSignature = none → some (.funcD d) ∈ f.decls →
        some (.funcD { d with name := "_gopherjs_original_" ++ d.name }) ∈
          (augmentOriginalFile f m).decls) := by
  constructor
  · intro d hrecv hpf hk
    refine ⟨augOrigDeclCh_purged m d T i hrecv hTne hk hT hpm, ?_⟩
    intro hmem
    obtain ⟨x, hxmem, hxt⟩ := augmentOriginalFile_mem_image m f d hmem
    obtain ⟨e, hxe, hbr⟩ := augOrigDeclCh_funcD_image m x d hxt
    rcases hbr with ⟨hke, hde⟩ | ⟨j, hkj, hjsig, hjko, hde⟩ | ⟨j, o, hkj, hjsig, hrecv2⟩
    · rw [hxe, ← hde] at hxt
      rw [augOrigDeclCh_purged m d T i hrecv hTne hk hT hpm] at hxt
      exact absurd hxt (by simp)
    · have hdn : d.name = "_gopherjs_original_" ++ e.name := by rw [hde]
      rw [hdn, strHasPrefix_append] at hpf
      exact absurd hpf (by decide)
    · have ho : o.recv = some T := by rw [← hrecv2, hrecv]
      unfold ovLookup at hkj
      cases hf : List.find? (fun p => p.1 = funcKey e) m with
      | none => rw [hf] at hkj; simp at hkj
      | some q =>
        rw [hf] at hkj
        simp at hkj
        have hqm := List.mem_of_find?_eq_some hf
        have hq := hsig q hqm
        rw [hkj, hjsig] at hq
        simp only [Bool.not_eq_true'] at hq
        rw [ho] at hq
        simp at hq
  · intro d j hrecv hk hko hjsig hmem
    exact augmentOriginalFile_mem_of m f (some (.funcD d)) _ hmem
      (by rw [augOrigDeclCh_keepOriginal m d j hk hko hjsig])

/-- C8 witness: purging `T` deletes `T.gone` but the keep-original entry of
`T.keep` takes precedence and the method survives renamed. -/
theorem C8_purge_methods_witness :
    ovLookup mC8 "T" = some { purgeMethods := true } ∧
    ({ purgeMethods := true } : OverrideInfo).purgeMethods = true ∧
    ("T" : String) ≠ "" ∧
    (∀ p ∈ mC8, (match p.2.overrideSignature with
        | some o => !(o.recv == some "T")
        | none => true) = true) ∧
    augOrigDeclCh mC8
      (some (.funcD { name := "gone", recv := some "T", body := [.lit 3] })) =
        (none, true) ∧
    some (.funcD { name := "gone", recv := some "T", body := [.lit 3] }) ∉
      (augmentOriginalFile fC8 mC8).decls ∧
    some (.funcD
      { name := "_gopherjs_original_keep", recv := some "T", body := [.lit 4] })
      ∈ (augmentOriginalFile fC8 mC8).decls := by
  have h := C8_purge_methods mC8 fC8 "T" { purgeMethods := true }
    rfl rfl (by decide) (by decide)
  refine ⟨rfl, rfl, by decide, by decide, ?_, ?_, ?_⟩
  · exact (h.1 { name := "gone", recv := some "T", body := [.lit 3] } rfl rfl rfl).1
  · exact (h.1 { name := "gone", recv := some "T", body := [.lit 3] } rfl rfl rfl).2
  · exact h.2 { name := "keep", recv := some "T", body := [.lit 4] }
      { keepOriginal := true } rfl rfl rfl rfl
      (List.Mem.tail _ (List.Mem.head _))

/-! ### Import pruning: tracking individual imports (C4) -/

theorem importsList_eq (f : File) : f.importsList = importsOfDecls f.decls := rfl

theorem mapSpecsImports_counter (g : Nat → ImportData → Option ImportData) :
    ∀ (specs : List (Option Spec)) (i : Nat),
    (mapSpecsImports g specs i).2 = i + (importsOfSpecs specs).length := by
  intro specs
  induction specs with
  | nil => intro i; simp [mapSpecsImports, importsOfSpecs]
  | cons os rest ih =>
    intro i
    match os with
    | some (.importSp im) =>
      rcases hsplit : mapSpecsImports g rest (i + 1) with ⟨rest2, i2⟩
      have h := ih (i + 1)
      rw [hsplit] at h
      simp only [mapSpecsImports, hsplit, importsOfSpecs, List.flatMap_cons,
        List.length_append, List.length_cons, List.length_nil]
      simp only [importsOfSpecs] at h
      omega
    | none =>
      rcases hsplit : mapSpecsImports g rest i with ⟨rest2, i2⟩
      have h := ih i
      rw [hsplit] at h
      simp only [mapSpecsImports, hsplit, importsOfSpecs, List.flatMap_cons,
        List.nil_append]
      simpa [importsOfSpecs] using h
    | some (.typeSp nm ds ty) =>
      rcases hsplit : mapSpecsImports g rest i with ⟨rest2, i2⟩
      have h := ih i
      rw [hsplit] at h
      simp only [mapSpecsImports, hsplit, importsOfSpecs, List.flatMap_cons,
        List.nil_append]
      simpa [importsOfSpecs] using h
    | some (.valueSp ns vs ds) =>
      rcases hsplit : mapSpecsImports g rest i with ⟨rest2, i2⟩
      have h := ih i
      rw [hsplit] at h
      simp only [mapSpecsImports, hsplit, importsOfSpecs, List.flatMap_cons,
        List.nil_append]
      simpa [importsOfSpecs] using h

theorem importsOfSpecs_mapSpecs (g : Nat → ImportData → Option ImportData) :
    ∀ (specs : List (Option Spec)) (i : Nat),
    importsOfSpecs (mapSpecsImports g specs i).1 =
      (List.enumFrom i (importsOfSpecs specs)).filterMap (fun p => g p.1 p.2) := by
  intro specs
  induction specs with
  | nil => intro i; simp [mapSpecsImports, importsOfSpecs]
  | cons os rest ih =>
    intro i
    match os with
    | some (.importSp im) =>
      rcases hsplit : mapSpecsImports g rest (i + 1) with ⟨rest2, i2⟩
      have h := ih (i + 1)
      rw [hsplit] at h
      cases hg : g i im with
      | none =>
        simp only [mapSpecsImports, hsplit, hg, importsOfSpecs, List.flatMap_cons,
          List.enumFrom_cons, List.filterMap_cons]
        simp only [importsOfSpecs] at h
        simpa [hg] using h
      | some im2 =>
        simp only [mapSpecsImports, hsplit, hg, importsOfSpecs, List.flatMap_cons,
          List.enumFrom_cons, List.filterMap_cons]
        simp only [importsOfSpecs] at h
        simpa [hg] using h
    | none =>
      rcases hsplit : mapSpecsImports g rest i with ⟨rest2, i2⟩
      have h := ih i
      rw [hsplit] at h
      simp only [mapSpecsImports, hsplit, importsOfSpecs, List.flatMap_cons,
        List.nil_append]
      simpa [importsOfSpecs] using h
    | some (.typeSp nm ds ty) =>
      rcases hsplit : mapSpecsImports g rest i with ⟨rest2, i2⟩
      have h := ih i
      rw [hsplit] at h
      simp only [mapSpecsImports, hsplit, importsOfSpecs, List.flatMap_cons,
        List.nil_append]
      simpa [importsOfSpecs] using h
    | some (.valueSp ns vs ds) =>
      rcases hsplit : mapSpecsImports g rest i with ⟨rest2, i2⟩
      have h := ih i
      rw [hsplit] at h
      simp only [mapSpecsImports, hsplit, importsOfSpecs, List.flatMap_cons,
        List.nil_append]
      simpa [importsOfSpecs] using h

theorem importsOfDecls_mapDecls (g : Nat → ImportData → Option ImportData) :
    ∀ (ds : List (Option Decl)) (i : Nat),
    importsOfDecls (mapDeclsImports g ds i) =
      (List.enumFrom i (importsOfDecls ds)).filterMap (fun p => g p.1 p.2) := by
  intro ds
  induction ds with
  | nil => intro i; simp [mapDeclsImports, importsOfDecls]
  | cons od rest ih =>
    intro i
    match od with
    | some (.genD gd) =>
      rcases hsplit : mapSpecsImports g gd.specs i with ⟨specs2, i2⟩
      have hc := mapSpecsImports_counter g gd.specs i
      have hs := importsOfSpecs_mapSpecs g gd.specs i
      rw [hsplit] at hc hs
      simp only [mapDeclsImports, hsplit, importsOfDecls, List.flatMap_cons]
      rw [List.enumFrom_append, List.filterMap_append]
      simp only [importsOfDecls] at ih
      simp only at hc
      rw [hs, ih i2, hc]
    | none =>
      simp only [mapDeclsImports, importsOfDecls, List.flatMap_cons, List.nil_append]
      simpa [importsOfDecls] using ih i
    | some (.funcD d) =>
      simp only [mapDeclsImports, importsOfDecls, List.flatMap_cons, List.nil_append]
      simpa [importsOfDecls] using ih i

theorem importsList_mapFileImports (f : File) (g : Nat → ImportData → Option ImportData) :
    (mapFileImports f g).importsList =
      (List.enumFrom 0 f.importsList).filterMap (fun p => g p.1 p.2) := by
  rw [importsList_eq, importsList_eq, mapFileImports, importsOfDecls_mapDecls]

theorem getElem_mapFileImports_some (f : File) (h : Nat → ImportData → ImportData)
    (j : Nat) :
    (mapFileImports f (fun j2 im2 => some (h j2 im2))).importsList[j]? =
      f.importsList[j]?.map (fun a => h j a) := by
  rw [importsList_mapFileImports]
  have heq : (List.enumFrom 0 f.importsList).filterMap
      (fun p => (fun j2 im2 => some (h j2 im2)) p.1 p.2) =
      (List.enumFrom 0 f.importsList).map (fun p => h p.1 p.2) := by
    rw [← List.filterMap_eq_map (fun p : Nat × ImportData => h p.1 p.2)]
    rfl
  rw [heq, List.getElem?_map, List.getElem?_enumFrom]
  cases f.importsList[j]? <;> simp

theorem getElem_mapFileImports_blank (f : File) (t j : Nat) :
    (mapFileImports f (fun j2 im2 =>
        if j2 = t then some { im2 with name := some "_" }
        else some im2)).importsList[j]? =
      f.importsList[j]?.map
        (fun a => if j = t then { a with name := some "_" } else a) := by
  have hg : (fun (j2 : Nat) (im2 : ImportData) =>
      if j2 = t then some { im2 with name := some "_" } else some im2) =
      (fun j2 im2 =>
        some (if j2 = t then { im2 with name := some "_" } else im2)) := by
    funext j2 im2
    by_cases hc : j2 = t <;> simp [hc]
  rw [hg, getElem_mapFileImports_some]

theorem specDirective_mapSpecs (g : Nat → ImportData → Option ImportData)
    (pre : String) :
    ∀ (specs : List (Option Spec)) (i : Nat),
    ((mapSpecsImports g specs i).1).any (specDirective pre) =
      specs.any (specDirective pre) := by
  intro specs
  induction specs with
  | nil => intro i; simp [mapSpecsImports]
  | cons os rest ih =>
    intro i
    match os with
    | some (.importSp im) =>
      rcases hsplit : mapSpecsImports g rest (i + 1) with ⟨rest2, i2⟩
      have h := ih (i + 1)
      rw [hsplit] at h
      cases hg : g i im with
      | none =>
        simp only [mapSpecsImports, hsplit, hg, List.any_cons, specDirective]
        simpa using h
      | some im2 =>
        simp only [mapSpecsImports, hsplit, hg, List.any_cons, specDirective]
        simpa using h
    | none =>
      rcases hsplit : mapSpecsImports g rest i with ⟨rest2, i2⟩
      have h := ih i
      rw [hsplit] at h
      simp only [mapSpecsImports, hsplit, List.any_cons]
      simpa using h
    | some (.typeSp nm ds2 ty) =>
      rcases hsplit : mapSpecsImports g rest i with ⟨rest2, i2⟩
      have h := ih i
      rw [hsplit] at h
      simp only [mapSpecsImports, hsplit, List.any_cons]
      simp only at h
      rw [h]
    | some (.valueSp ns vs ds2) =>
      rcases hsplit : mapSpecsImports g rest i with ⟨rest2, i2⟩
      have h := ih i
      rw [hsplit] at h
      simp only [mapSpecsImports, hsplit, List.any_cons]
      simp only at h
      rw [h]

theorem declDirective_mapDecls (g : Nat → ImportData → Option ImportData)
    (pre : String) :
    ∀ (ds : List (Option Decl)) (i : Nat),
    (mapDeclsImports g ds i).any (declDirective pre) =
      ds.any (declDirective pre) := by
  intro ds
  induction ds with
  | nil => intro i; simp [mapDeclsImports]
  | cons od rest ih =>
    intro i
    match od with
    | some (.genD gd) =>
      rcases hsplit : mapSpecsImports g gd.specs i with ⟨specs2, i2⟩
      have hs := specDirective_mapSpecs g pre gd.specs i
      rw [hsplit] at hs
      simp only at hs
      simp only [mapDeclsImports, hsplit, List.any_cons, declDirective]
      rw [hs, ih i2]
    | none =>
      simp only [mapDeclsImports, List.any_cons]
      rw [ih i]
    | some (.funcD d) =>
      simp only [mapDeclsImports, List.any_cons]
      rw [ih i]

theorem fileHasDirective_mapFileImports (f : File)
    (g : Nat → ImportData → Option ImportData) (pre : String) :
    fileHasDirective (mapFileImports f g) pre = fileHasDirective f pre := by
  show (mapDeclsImports g f.decls 0).any (declDirective pre) =
    f.decls.any (declDirective pre)
  exact declDirective_mapDecls g pre f.decls 0

theorem convertLoop_rem_mem (imps : List ImportData) :
    ∀ (l : List (String × Nat)) (f : File) (e : String × Nat),
    e ∈ (convertLoop imps l f).2 → e ∈ l := by
  intro l
  induction l with
  | nil => intro f e h; simp [convertLoop] at h
  | cons hd rest ih =>
    intro f e h
    obtain ⟨n, j⟩ := hd
    simp only [convertLoop] at h
    revert h
    split
    · next pre hd2 =>
      by_cases hf : fileHasDirective f pre = true
      · rw [if_pos hf]
        intro h
        exact List.mem_cons_of_mem _ (ih _ e h)
      · rw [if_neg hf]
        intro h
        have h2 : e ∈ (n, j) :: (convertLoop imps rest f).2 := h
        rcases List.mem_cons.mp h2 with h3 | h3
        · exact List.mem_cons.mpr (Or.inl h3)
        · exact List.mem_cons_of_mem _ (ih f e h3)
    · intro h
      have h2 : e ∈ (n, j) :: (convertLoop imps rest f).2 := h
      rcases List.mem_cons.mp h2 with h3 | h3
      · exact List.mem_cons.mpr (Or.inl h3)
      · exact List.mem_cons_of_mem _ (ih f e h3)

theorem convertLoop_getElem_notmem (imps : List ImportData) :
    ∀ (l : List (String × Nat)) (f : File) (i : Nat),
    i ∉ l.map (·.2) →
    ((convertLoop imps l f).1).importsList[i]? = f.importsList[i]? := by
  intro l
  induction l with
  | nil => intro f i _; rfl
  | cons hd rest ih =>
    intro f i h
    obtain ⟨n, j⟩ := hd
    have hij : i ≠ j := by
      intro hh
      exact h (by simp [hh])
    have hrest : i ∉ rest.map (·.2) := by
      intro hh
      exact h (by simp [hh])
    simp only [convertLoop]
    split
    · next pre hd2 =>
      by_cases hf : fileHasDirective f pre = true
      · rw [if_pos hf, ih _ _ hrest, getElem_mapFileImports_blank]
        cases f.importsList[i]? <;> simp [hij]
      · rw [if_neg hf]
        exact ih f i hrest
    · exact ih f i hrest

theorem convertLoop_blank (imps : List ImportData) (p pre : String) (i : Nat)
    (hpp : directivePrefixFor p = some pre)
    (hipath : (imps.getD i ⟨none, ""⟩).path = p) :
    ∀ (l : List (String × Nat)) (f : File),
    (l.map (·.2)).Nodup →
    (∃ n, (n, i) ∈ l) →
    fileHasDirective f pre = true →
    (∃ im, f.importsList[i]? = some im ∧ im.path = p) →
    (∃ im2, ((convertLoop imps l f).1).importsList[i]? = some im2 ∧
       im2.path = p ∧ im2.name = some "_") ∧
    i ∉ ((convertLoop imps l f).2).map (·.2) := by
  intro l
  induction l with
  | nil =>
    intro f _ hmem _ _
    rcases hmem with ⟨n, hn⟩
    simp at hn
  | cons hd rest ih =>
    intro f hnd hmem hfd hcur
    obtain ⟨m, j⟩ := hd
    by_cases hji : j = i
    · subst hji
      have hrest : j ∉ rest.map (·.2) := by
        simp only [List.map_cons, List.nodup_cons] at hnd
        exact hnd.1
      have hd2 : directivePrefixFor (imps.getD j ⟨none, ""⟩).path = some pre := by
        rw [hipath, hpp]
      simp only [convertLoop, hd2]
      rw [if_pos hfd]
      constructor
      · rw [convertLoop_getElem_notmem imps rest _ j hrest]
        rcases hcur with ⟨im0, h0, hp0⟩
        refine ⟨{ im0 with name := some "_" }, ?_, by simpa using hp0, rfl⟩
        rw [getElem_mapFileImports_blank, h0]
        simp
      · intro hcontra
        rcases List.mem_map.mp hcontra with ⟨e, he, hei⟩
        have hmem2 := convertLoop_rem_mem imps rest _ e he
        exact hrest (List.mem_map.mpr ⟨e, hmem2, hei⟩)
    · have hmem' : ∃ n, (n, i) ∈ rest := by
        rcases hmem with ⟨n, hn⟩
        rcases List.mem_cons.mp hn with h1 | h1
        · exact absurd (congrArg Prod.snd h1).symm hji
        · exact ⟨n, h1⟩
      have hnd' : (rest.map (·.2)).Nodup := by
        simp only [List.map_cons, List.nodup_cons] at hnd
        exact hnd.2
      simp only [convertLoop]
      split
      · next pre2 hdir2 =>
        by_cases hf2 : fileHasDirective f pre2 = true
        · rw [if_pos hf2]
          apply ih _ hnd' hmem'
          · rw [fileHasDirective_mapFileImports]
            exact hfd
          · rcases hcur with ⟨im0, h0, hp0⟩
            refine ⟨im0, ?_, hp0⟩
            rw [getElem_mapFileImports_blank, h0]
            have hij : ¬ i = j := fun hh => hji hh.symm
            simp [hij]
        · rw [if_neg hf2]
          refine ⟨(ih f hnd' hmem' hfd hcur).1, ?_⟩
          intro hcontra
          have h2 : i ∈ ((m, j) :: (convertLoop imps rest f).2).map (·.2) :=
            hcontra
          simp only [List.map_cons, List.mem_cons] at h2
          rcases h2 with h3 | h3
          · exact hji h3.symm
          · exact (ih f hnd' hmem' hfd hcur).2 h3
      · refine ⟨(ih f hnd' hmem' hfd hcur).1, ?_⟩
        intro hcontra
        have h2 : i ∈ ((m, j) :: (convertLoop imps rest f).2).map (·.2) :=
          hcontra
        simp only [List.map_cons, List.mem_cons] at h2
        rcases h2 with h3 | h3
        · exact hji h3.symm
        · exact (ih f hnd' hmem' hfd hcur).2 h3

theorem importsOfSpecs_mem (im : ImportData) (specs : List (Option Spec)) :
    im ∈ importsOfSpecs specs ↔ some (.importSp im) ∈ specs := by
  simp only [importsOfSpecs, List.mem_flatMap]
  constructor
  · rintro ⟨os, hos, hin⟩
    match os with
    | some (.importSp im2) =>
      simp only [List.mem_singleton] at hin
      subst hin
      exact hos
    | some (.typeSp nm ds ty) => simp at hin
    | some (.valueSp ns vs ds) => simp at hin
    | none => simp at hin
  · intro h
    exact ⟨some (.importSp im), h, by simp⟩

theorem finalize_import_mem (f : File) (im : ImportData)
    (h : im ∈ f.importsList) : im ∈ (finalizeRemovals f).importsList := by
  rw [importsList_eq] at h ⊢
  unfold finalizeRemovals
  simp only [importsOfDecls, List.mem_flatMap] at h ⊢
  rcases h with ⟨od, hod, hin⟩
  match od with
  | some (.genD g) =>
    have hsp := (importsOfSpecs_mem im g.specs).mp hin
    have him2 : some (.importSp im) ∈ g.specs.map finalizeSpec :=
      List.mem_map.mpr ⟨some (.importSp im), hsp, rfl⟩
    have hfd : ∃ g', finalizeDecl (some (.genD g)) = some (.genD g') ∧
        some (.importSp im) ∈ g'.specs := by
      simp only [finalizeDecl]
      by_cases hany : (g.specs.map finalizeSpec).any (fun s => s.isNone) = true
      · rw [if_pos hany]
        have hmem3 : some (.importSp im) ∈ squeeze (g.specs.map finalizeSpec) :=
          (mem_squeeze_iff _ _).mpr him2
        have hlen : ¬ (squeeze (g.specs.map finalizeSpec)).length = 0 := by
          intro h0
          rw [List.length_eq_zero.mp h0] at hmem3
          simp at hmem3
        rw [if_neg hlen]
        exact ⟨_, rfl, hmem3⟩
      · rw [if_neg hany]
        exact ⟨_, rfl, him2⟩
    rcases hfd with ⟨g', hg', hmem'⟩
    refine ⟨some (.genD g'), ?_, ?_⟩
    · exact (mem_squeeze_iff _ _).mpr
        (List.mem_map.mpr ⟨some (.genD g), hod, hg'⟩)
    · exact (importsOfSpecs_mem im g'.specs).mpr hmem'
  | some (.funcD d) => simp at hin
  | none => simp at hin

theorem pruneRemove_mem (f2 : File) (rem : List (String × Nat)) (i : Nat)
    (im : ImportData) (h : f2.importsList[i]? = some im)
    (hi : i ∉ rem.map (·.2)) :
    im ∈ (pruneRemove f2 rem).importsList := by
  unfold pruneRemove
  by_cases hr : rem.isEmpty = true
  · rw [if_pos hr]
    exact List.getElem?_mem h
  · rw [if_neg hr]
    apply finalize_import_mem
    rw [importsList_mapFileImports]
    apply List.mem_filterMap.mpr
    refine ⟨(i, im), ?_, ?_⟩
    · exact List.getElem?_mem
        (show (List.enumFrom 0 f2.importsList)[i]? = some (i, im) by
          rw [List.getElem?_enumFrom, h]; simp)
    · have hc : (rem.map (·.2)).contains i = false := by
        simpa using hi
      simp only [hc]
      simp

/-- **C4, counterexample.**  The claim says every file carrying a
`//go:embed` directive retains the `embed` import as a discard-named
one.  `fileEmbedOnly` carries a `//go:embed` directive and an `embed`
entry, yet because it is reduced to only imports and the clear-all branch
of `pruneImports` tests only for `//go:linkname`, ALL of its imports are
removed, the `embed` one included. -/
theorem C4_embed_counterexample :
    fileHasDirective fileEmbedOnly "//go:embed " = true ∧
    fileEmbedOnly.importsList = [⟨none, "embed"⟩] ∧
    pruneImports fileEmbedOnly = ⟨[]⟩ ∧
    (pruneImports fileEmbedOnly).importsList = [] :=
  ⟨rfl, rfl, rfl, rfl⟩

/-- **C4 (amended).**  Import pruning after augmentation:
(a) a file with zero non-import declarations and no `//go:linkname`
directive loses all of its declarations and hence all of its imports —
`//go:embed` does not protect against this branch; and
(b) for a file not cleared by that branch, an otherwise-unused import of
`unsafe` (resp. `embed`) is retained, converted to a discard-named (`_`)
one, whenever the file carries the matching `//go:linkname `
(resp. `//go:embed `) directive.  Here `(n, i) ∈ pruneUnused f` states
that the import's derived name `n` is unused and `i` is its position in
`file.Imports`; the `Nodup` hypothesis states the unused entries point at
pairwise distinct imports, which Go's name-keyed map guarantees. -/
theorem C4_import_pruning_amended (f : File) (p pre n : String) (i : Nat) :
    (isOnlyImports f = true → fileHasDirective f "//go:linkname " = false →
      pruneImports f = ⟨[]⟩) ∧
    ((isOnlyImports f = false ∨ fileHasDirective f "//go:linkname " = true) →
     directivePrefixFor p = some pre →
     fileHasDirective f pre = true →
     (n, i) ∈ pruneUnused f →
     ((pruneUnused f).map (·.2)).Nodup →
     f.importsList[i]?.map (·.path) = some p →
     ∃ im, im ∈ (pruneImports f).importsList ∧ im.path = p ∧
       im.name = some "_") := by
  constructor
  · intro h1 h2
    have hcond : (isOnlyImports f = true) ∧
        ¬ (fileHasDirective f "//go:linkname " = true) := ⟨h1, by simp [h2]⟩
    unfold pruneImports
    rw [if_pos hcond]
  · intro hA hpp hfd hmem hnd hpath
    have hcond : ¬ ((isOnlyImports f = true) ∧
        ¬ (fileHasDirective f "//go:linkname " = true)) := by
      rcases hA with h | h
      · intro hc
        rw [h] at hc
        exact absurd hc.1 (by simp)
      · intro hc
        exact hc.2 h
    unfold pruneImports
    rw [if_neg hcond]
    have hne : ¬ (pruneUnused f).isEmpty = true := by
      intro hemp
      have hq : pruneUnused f = [] := by
        cases hq2 : pruneUnused f
        · rfl
        · rw [hq2] at hemp; simp at hemp
      rw [hq] at hmem
      simp at hmem
    rw [if_neg hne]
    rcases Option.map_eq_some'.mp hpath with ⟨im0, h0, hp0⟩
    have hipath : (f.importsList.getD i ⟨none, ""⟩).path = p := by
      rw [List.getD_eq_getElem?_getD, h0]
      exact hp0
    have hmain := convertLoop_blank f.importsList p pre i hpp hipath
      (pruneUnused f) f hnd ⟨n, hmem⟩ hfd ⟨im0, h0, hp0⟩
    rcases hmain with ⟨⟨im2, hres, hp2, hname⟩, hremi⟩
    exact ⟨im2, pruneRemove_mem _ _ i im2 hres hremi, hp2, hname⟩

/-- C4 witness: branch (a) at `fileEmbedOnly` (only imports, no linkname),
branch (b) at `fileEmbedUsed` (a `//go:embed` var declaration, a used
`strings` import and an unused `embed` import at position 1, which the
pruning converts to a `_` import). -/
theorem C4_import_pruning_amended_witness :
    (isOnlyImports fileEmbedOnly = true ∧
     fileHasDirective fileEmbedOnly "//go:linkname " = false ∧
     pruneImports fileEmbedOnly = ⟨[]⟩) ∧
    ((isOnlyImports fileEmbedUsed = false ∨
        fileHasDirective fileEmbedUsed "//go:linkname " = true) ∧
     directivePrefixFor "embed" = some "//go:embed " ∧
     fileHasDirective fileEmbedUsed "//go:embed " = true ∧
     ("embed", 1) ∈ pruneUnused fileEmbedUsed ∧
     ((pruneUnused fileEmbedUsed).map (·.2)).Nodup ∧
     fileEmbedUsed.importsList[1]?.map (·.path) = some "embed" ∧
     ∃ im, im ∈ (pruneImports fileEmbedUsed).importsList ∧
       im.path = "embed" ∧ im.name = some "_") := by
  refine ⟨⟨rfl, rfl,
    (C4_import_pruning_amended fileEmbedOnly "embed" "//go:embed " "embed" 0).1
      rfl rfl⟩,
    Or.inl rfl, rfl, rfl, by decide, by decide, rfl,
    (C4_import_pruning_amended fileEmbedUsed "embed" "//go:embed " "embed" 1).2
      (Or.inl rfl) rfl rfl (by decide) (by decide) rfl⟩

/-! ### At-most-once compilation (C7) -/

theorem growsBy_refl (P : String → Prop) (st : SessionSt) : growsBy P st st :=
  ⟨fun _ _ h => h, fun _ h => Or.inl h, [], by simp, List.nodup_nil, by simp⟩

theorem growsBy_mono (P Q : String → Prop) (st st2 : SessionSt)
    (hPQ : ∀ x, P x → Q x) (h : growsBy P st st2) : growsBy Q st st2 := by
  obtain ⟨h1, h2, Δ, hΔ1, hΔ2, hΔ3⟩ := h
  exact ⟨h1, fun x hx => (h2 x hx).imp id (hPQ x), Δ, hΔ1, hΔ2,
    fun x hx => ⟨(hΔ3 x hx).1, (hΔ3 x hx).2.1, hPQ x (hΔ3 x hx).2.2⟩⟩

theorem growsBy_trans (P : String → Prop) (st st2 st3 : SessionSt)
    (h : growsBy P st st2) (h' : growsBy P st2 st3) : growsBy P st st3 := by
  obtain ⟨h1, h2, Δ, hΔ1, hΔ2, hΔ3⟩ := h
  obtain ⟨g1, g2, Γ, hΓ1, hΓ2, hΓ3⟩ := h'
  refine ⟨fun x a0 hx => g1 x a0 (h1 x a0 hx), ?_, Δ ++ Γ, ?_, ?_, ?_⟩
  · intro x hx
    rcases g2 x hx with hx2 | hx2
    · exact h2 x hx2
    · exact Or.inr hx2
  · rw [hΓ1, hΔ1, List.append_assoc]
  · rw [List.nodup_append]
    refine ⟨hΔ2, hΓ2, ?_⟩
    intro x hxΔ hxΓ
    have hnone2 := (hΓ3 x hxΓ).1
    have hne2 := (hΔ3 x hxΔ).2.1
    exact hne2 hnone2
  · intro x hx
    rcases List.mem_append.mp hx with hx2 | hx2
    · refine ⟨(hΔ3 x hx2).1, ?_, (hΔ3 x hx2).2.2⟩
      intro hn3
      rcases Option.ne_none_iff_exists'.mp (hΔ3 x hx2).2.1 with ⟨a0, ha0⟩
      rw [g1 x a0 ha0] at hn3
      exact Option.noConfusion hn3
    · refine ⟨?_, (hΓ3 x hx2).2.1, (hΓ3 x hx2).2.2⟩
      cases ha : lookupArchive st x with
      | none => rfl
      | some a0 =>
        have := h1 x a0 ha
        rw [(hΓ3 x hx2).1] at this
        exact Option.noConfusion this

theorem find_mapAssign_self {β : Type} (m : List (String × β)) (k : String)
    (v : β) :
    ((mapAssign m k v).find? (fun q => q.1 = k)).map (·.2) = some v := by
  unfold mapAssign
  by_cases ha : (List.any m fun p => p.1 = k) = true
  · rw [if_pos ha]
    induction m with
    | nil => simp at ha
    | cons p rest ih =>
      simp only [List.any_cons, Bool.or_eq_true] at ha
      by_cases hp : p.1 = k
      · simp [List.find?_cons, hp]
      · simp only [List.map_cons, if_neg hp]
        rw [List.find?_cons_of_neg _ (by simpa using hp)]
        exact ih (by rcases ha with h | h; · exact absurd (by simpa using h) hp
                     · exact h)
  · rw [if_neg ha]
    induction m with
    | nil => simp [List.find?]
    | cons p rest ih =>
      simp only [List.any_cons, Bool.or_eq_true, not_or] at ha
      rw [List.cons_append, List.find?_cons_of_neg _ (by simpa using ha.1)]
      exact ih (by simpa using ha.2)

theorem find_mapAssign_ne {β : Type} (m : List (String × β)) (k k' : String)
    (v : β) (h : k' ≠ k) :
    ((mapAssign m k v).find? (fun q => q.1 = k')).map (·.2) =
      (m.find? (fun q => q.1 = k')).map (·.2) := by
  unfold mapAssign
  by_cases ha : (List.any m fun p => p.1 = k) = true
  · rw [if_pos ha]
    clear ha
    induction m with
    | nil => simp
    | cons p rest ih =>
      by_cases hp : p.1 = k
      · rw [List.map_cons, if_pos hp,
          List.find?_cons_of_neg _ (by simpa using fun e => h e.symm),
          List.find?_cons_of_neg _ (by
            simp only [decide_eq_true_eq]
            intro e
            exact h (by rw [← e, hp]))]
        exact ih
      · rw [List.map_cons, if_neg hp]
        by_cases hp' : p.1 = k'
        · rw [List.find?_cons_of_pos _ (by simpa using hp'),
            List.find?_cons_of_pos _ (by simpa using hp')]
        · rw [List.find?_cons_of_neg _ (by simpa using hp'),
            List.find?_cons_of_neg _ (by simpa using hp')]
          exact ih
  · rw [if_neg ha, List.find?_append]
    have : List.find? (fun q => q.1 = k') [(k, v)] = none := by
      rw [List.find?_cons_of_neg _ (by simpa using fun e => h e.symm)]
      rfl
    rw [this, Option.or_none]

theorem lookupArchive_set_self (st : SessionSt) (p : String) (a : Archive) :
    lookupArchive (setArchive st p a) p = some a :=
  find_mapAssign_self st.upToDate p a

theorem lookupArchive_set_ne (st : SessionSt) (p x : String) (a : Archive)
    (h : x ≠ p) :
    lookupArchive (setArchive st p a) x = lookupArchive st x :=
  find_mapAssign_ne st.upToDate p x a h

theorem lookupArchive_with_compiles (st : SessionSt) (c : List String)
    (x : String) :
    lookupArchive { st with compiles := c } x = lookupArchive st x := rfl

theorem growsBy_set (P : String → Prop) (st st2 : SessionSt) (root : String)
    (a : Archive) (h : growsBy P st st2)
    (hnone : lookupArchive st root = none) :
    growsBy (fun x => P x ∨ x = root) st (setArchive st2 root a) := by
  obtain ⟨h1, h2, Δ, hΔ1, hΔ2, hΔ3⟩ := h
  refine ⟨?_, ?_, Δ, hΔ1, hΔ2, ?_⟩
  · intro x a0 hx
    have hxr : x ≠ root := by
      intro he
      rw [he, hnone] at hx
      exact Option.noConfusion hx
    rw [lookupArchive_set_ne _ _ _ _ hxr]
    exact h1 x a0 hx
  · intro x hx
    by_cases hxr : x = root
    · exact Or.inr (Or.inr hxr)
    · rw [lookupArchive_set_ne _ _ _ _ hxr] at hx
      exact (h2 x hx).imp id Or.inl
  · intro x hx
    refine ⟨(hΔ3 x hx).1, ?_, Or.inl (hΔ3 x hx).2.2⟩
    by_cases hxr : x = root
    · rw [hxr, lookupArchive_set_self]
      exact fun he => Option.noConfusion he
    · rw [lookupArchive_set_ne _ _ _ _ hxr]
      exact (hΔ3 x hx).2.1

theorem growsBy_compile (P : String → Prop) (st st2 : SessionSt)
    (root : String) (a : Archive) (h : growsBy P st st2) (hroot : ¬ P root)
    (hnone : lookupArchive st root = none) :
    growsBy (fun x => P x ∨ x = root) st
      { setArchive st2 root a with compiles := st2.compiles ++ [root] } := by
  obtain ⟨h1, h2, Δ, hΔ1, hΔ2, hΔ3⟩ := h
  refine ⟨?_, ?_, Δ ++ [root], ?_, ?_, ?_⟩
  · intro x a0 hx
    have hxr : x ≠ root := by
      intro he
      rw [he, hnone] at hx
      exact Option.noConfusion hx
    rw [lookupArchive_with_compiles, lookupArchive_set_ne _ _ _ _ hxr]
    exact h1 x a0 hx
  · intro x hx
    by_cases hxr : x = root
    · exact Or.inr (Or.inr hxr)
    · rw [lookupArchive_with_compiles, lookupArchive_set_ne _ _ _ _ hxr] at hx
      exact (h2 x hx).imp id Or.inl
  · show st2.compiles ++ [root] = st.compiles ++ (Δ ++ [root])
    rw [hΔ1, List.append_assoc]
  · rw [List.nodup_append]
    refine ⟨hΔ2, List.nodup_singleton root, ?_⟩
    intro x hxΔ hxr
    rw [List.mem_singleton] at hxr
    exact hroot (hxr ▸ (hΔ3 x hxΔ).2.2)
  · intro x hx
    rcases List.mem_append.mp hx with hx2 | hx2
    · refine ⟨(hΔ3 x hx2).1, ?_, Or.inl (hΔ3 x hx2).2.2⟩
      by_cases hxr : x = root
      · rw [hxr, lookupArchive_with_compiles, lookupArchive_set_self]
        exact fun he => Option.noConfusion he
      · rw [lookupArchive_with_compiles, lookupArchive_set_ne _ _ _ _ hxr]
        exact (hΔ3 x hx2).2.1
    · rw [List.mem_singleton] at hx2
      subst hx2
      refine ⟨hnone, ?_, Or.inr rfl⟩
      rw [lookupArchive_with_compiles, lookupArchive_set_self]
      exact fun he => Option.noConfusion he

theorem runImports_grows (b : String → SessionSt → Option (Nat × SessionSt))
    (P : String → Prop) :
    ∀ (qs : List String) (m : Nat) (st : SessionSt) (out : Nat × SessionSt),
    (∀ q ∈ qs, ∀ s r, b q s = some r → growsBy P s r.2) →
    runImports b qs m st = some out → growsBy P st out.2 := by
  intro qs
  induction qs with
  | nil =>
    intro m st out _ h
    simp only [runImports] at h
    cases h
    exact growsBy_refl P st
  | cons q rest ih =>
    intro m st out hb h
    simp only [runImports] at h
    cases hq : b q st with
    | none => rw [hq] at h; exact Option.noConfusion h
    | some r =>
      obtain ⟨mq, st1⟩ := r
      rw [hq] at h
      simp only at h
      have hg1 := hb q (List.mem_cons_self q rest) st (mq, st1) hq
      have hg2 := ih (if m < mq then mq else m) st1 out
        (fun q' hq' s r' hr' => hb q' (List.mem_cons_of_mem q hq') s r' hr') h
      exact growsBy_trans P st st1 out.2 hg1 hg2

theorem buildPackage_grows (env : BuildEnv) (rank : String → Nat)
    (hpk : ∀ q, (env.pkgOf q).importPath = q)
    (hrank : ∀ p q, q ∈ (env.pkgOf p).imports → q ≠ "unsafe" → rank q < rank p) :
    ∀ (fuel : Nat) (pkg : PackageData) (st : SessionSt)
      (out : Archive × PackageData × SessionSt),
    (∀ q ∈ pkg.imports, q ≠ "unsafe" → rank q < rank pkg.importPath) →
    buildPackage env fuel pkg st = some out →
    growsBy (fun x => rank x ≤ rank pkg.importPath) st out.2.2 ∧
    lookupArchive out.2.2 pkg.importPath ≠ none := by
  intro fuel
  induction fuel with
  | zero =>
    intro pkg st out _ h
    simp [buildPackage] at h
  | succ fuel ih =>
    intro pkg st out hedge hbp
    cases hla : lookupArchive st pkg.importPath with
    | some a =>
      simp only [buildPackage, hla] at hbp
      cases hbp
      refine ⟨growsBy_refl _ st, ?_⟩
      rw [hla]
      exact fun he => Option.noConfusion he
    | none =>
      simp only [buildPackage, hla] at hbp
      cases hri : runImports
          (fun q s => (buildPackage env fuel (env.pkgOf q) s).map fun r =>
            (r.2.1.srcModTime, r.2.2))
          (pkg.imports.filter (fun q => q != "unsafe"))
          (if pkg.srcModTime < env.exeMod then env.exeMod else pkg.srcModTime)
          st with
      | none =>
        rw [hri] at hbp
        exact Option.noConfusion hbp
      | some ms =>
        obtain ⟨m2, st2⟩ := ms
        rw [hri] at hbp
        simp only at hbp
        have hb : ∀ q ∈ pkg.imports.filter (fun q => q != "unsafe"),
            ∀ s r, ((buildPackage env fuel (env.pkgOf q) s).map fun r2 =>
              (r2.2.1.srcModTime, r2.2.2)) = some r →
            growsBy (fun x => rank x < rank pkg.importPath) s r.2 := by
          intro q hq s r hr
          rcases Option.map_eq_some'.mp hr with ⟨out2, hbp2, hout2⟩
          have hedge2 : ∀ q' ∈ (env.pkgOf q).imports, q' ≠ "unsafe" →
              rank q' < rank (env.pkgOf q).importPath := by
            intro q' hq' hu
            rw [hpk]
            exact hrank q q' hq' hu
          have hgq := ih (env.pkgOf q) s out2 hedge2 hbp2
          have hql : rank q < rank pkg.importPath := by
            rcases List.mem_filter.mp hq with ⟨hq1, hq2⟩
            exact hedge q hq1 (by simpa using hq2)
          have hr2 : r.2 = out2.2.2 := by rw [← hout2]
          rw [hr2]
          refine growsBy_mono _ _ _ _ ?_ hgq.1
          intro x hx
          calc rank x ≤ rank (env.pkgOf q).importPath := hx
            _ = rank q := by rw [hpk]
            _ < rank pkg.importPath := hql
        have hgrow2 : growsBy (fun x => rank x < rank pkg.importPath) st st2 :=
          runImports_grows _ _ _ _ _ (m2, st2) hb hri
        cases hload : (if env.noCache then none
            else loadArchive env pkg.importPath
              (if m2 < fileModTime env pkg then fileModTime env pkg else m2)) with
        | some a =>
          rw [hload] at hbp
          simp only at hbp
          cases hbp
          constructor
          · refine growsBy_mono _ _ _ _ ?_
              (growsBy_set _ st st2 pkg.importPath a hgrow2 hla)
            intro x hx
            rcases hx with hx | hx
            · exact Nat.le_of_lt hx
            · rw [hx]
          · show lookupArchive (setArchive st2 pkg.importPath a)
              pkg.importPath ≠ none
            rw [lookupArchive_set_self]
            exact fun he => Option.noConfusion he
        | none =>
          rw [hload] at hbp
          simp only at hbp
          cases hbp
          constructor
          · refine growsBy_mono _ _ _ _ ?_
              (growsBy_compile _ st st2 pkg.importPath ⟨pkg.importPath, false⟩
                hgrow2 (Nat.lt_irrefl _) hla)
            intro x hx
            rcases hx with hx | hx
            · exact Nat.le_of_lt hx
            · rw [hx]
          · show lookupArchive { setArchive st2 pkg.importPath
                ⟨pkg.importPath, false⟩ with
                  compiles := st2.compiles ++ [pkg.importPath] }
              pkg.importPath ≠ none
            rw [lookupArchive_with_compiles, lookupArchive_set_self]
            exact fun he => Option.noConfusion he

/-- **C7.**  At-most-once compilation per session.  `rank` is any measure
decreasing along (non-`unsafe`) imports — it exists exactly when
the import graph is acyclic, which the resolver guarantees.
(a) A `BuildPackage` call for a path that already has an in-memory archive
returns that archive with the session state untouched: nothing is
recompiled.  (b) The import-resolver callback does the same.
(c) Any successful `BuildPackage` run from a state satisfying the session
invariant preserves the invariant, extends the compile log only by paths
that had no in-memory archive and had never been compiled in this session,
and leaves a log in which every import path occurs at most once — i.e. the
front-end Compile step executes at most once per path per session, however
many times the path is requested directly or transitively. -/
theorem C7_compile_at_most_once (env : BuildEnv) (rank : String → Nat)
    (hpk : ∀ q, (env.pkgOf q).importPath = q)
    (hrank : ∀ p q, q ∈ (env.pkgOf p).imports → q ≠ "unsafe" →
      rank q < rank p) :
    (∀ fuel pkg st a, lookupArchive st pkg.importPath = some a →
      buildPackage env (fuel + 1) pkg st = some (a, pkg, st)) ∧
    (∀ fuel path st a, lookupArchive st path = some a →
      importResolver env fuel path st = some (a, st)) ∧
    (∀ fuel path st out, sessionInv st →
      buildPackage env fuel (env.pkgOf path) st = some out →
      sessionInv out.2.2 ∧
      (∃ Δ, out.2.2.compiles = st.compiles ++ Δ ∧
        ∀ x ∈ Δ, lookupArchive st x = none ∧ x ∉ st.compiles) ∧
      (∀ x, out.2.2.compiles.count x ≤ 1)) := by
  refine ⟨?_, ?_, ?_⟩
  · intro fuel pkg st a h
    simp [buildPackage, h]
  · intro fuel path st a h
    simp [importResolver, h]
  · intro fuel path st out hinv hbp
    have hedge : ∀ q ∈ (env.pkgOf path).imports, q ≠ "unsafe" →
        rank q < rank (env.pkgOf path).importPath := by
      intro q hq hu
      rw [hpk]
      exact hrank path q hq hu
    have hg := buildPackage_grows env rank hpk hrank fuel (env.pkgOf path)
      st out hedge hbp
    obtain ⟨⟨h1, h2, Δ, hΔ1, hΔ2, hΔ3⟩, hroot⟩ := hg
    have hdisj : ∀ x ∈ st.compiles, x ∉ Δ := by
      intro x hx hxΔ
      exact (hinv.2 x hx) (hΔ3 x hxΔ).1
    have hnodup : out.2.2.compiles.Nodup := by
      rw [hΔ1, List.nodup_append]
      refine ⟨hinv.1, hΔ2, ?_⟩
      intro x hx hx2
      exact hdisj x hx hx2
    refine ⟨⟨hnodup, ?_⟩, ⟨Δ, hΔ1, ?_⟩, ?_⟩
    · intro x hx
      rw [hΔ1] at hx
      rcases List.mem_append.mp hx with hx2 | hx2
      · rcases Option.ne_none_iff_exists'.mp (hinv.2 x hx2) with ⟨a0, ha0⟩
        rw [h1 x a0 ha0]
        exact fun he => Option.noConfusion he
      · exact (hΔ3 x hx2).2.1
    · intro x hx
      exact ⟨(hΔ3 x hx).1, fun hc => hdisj x hc hx⟩
    · intro x
      exact List.nodup_iff_count_le_one.mp hnodup x

/-- C7 witness: the diamond `R → {A, B} → P` with the on-disk cache
disabled, built with fuel 4 from the empty session: the compile log is
exactly `["P", "A", "B", "R"]` — `P` is compiled once although `A` and `B`
both import it. -/
theorem C7_compile_at_most_once_witness :
    (∀ q, (envC7.pkgOf q).importPath = q) ∧
    (∀ p q, q ∈ (envC7.pkgOf p).imports → q ≠ "unsafe" →
      rankC7 q < rankC7 p) ∧
    sessionInv ⟨[], []⟩ ∧
    ∃ out, buildPackage envC7 4 (envC7.pkgOf "R") ⟨[], []⟩ = some out ∧
      out.2.2.compiles = ["P", "A", "B", "R"] ∧
      sessionInv out.2.2 ∧ (∀ x, out.2.2.compiles.count x ≤ 1) := by
  have hpk : ∀ q, (envC7.pkgOf q).importPath = q := by
    intro q
    show (diamondPkg q).importPath = q
    unfold diamondPkg
    split_ifs with h1 h2 h3
    · exact h1.symm
    · exact h2.symm
    · exact h3.symm
    · rfl
  have hrank : ∀ p q, q ∈ (envC7.pkgOf p).imports → q ≠ "unsafe" →
      rankC7 q < rankC7 p := by
    intro p q hq hu
    have hq' : q ∈ (diamondPkg p).imports := hq
    unfold diamondPkg at hq'
    split_ifs at hq' with h1 h2 h3
    · subst h1
      simp only [List.mem_cons, List.mem_singleton] at hq'
      rcases hq' with h | h
      · subst h; decide
      · rcases h with h | h
        · subst h; decide
        · simp at h
    · subst h2
      simp only [List.mem_singleton] at hq'
      subst hq'
      decide
    · subst h3
      simp only [List.mem_singleton] at hq'
      subst hq'
      decide
    · simp at hq'
  have hinv0 : sessionInv ⟨[], []⟩ := ⟨List.nodup_nil, by simp⟩
  have hbp : buildPackage envC7 4 (envC7.pkgOf "R") ⟨[], []⟩ =
      some (⟨"R", false⟩,
        { importPath := "R", dir := "R", goFiles := ["r.go"], jsFiles := [],
          imports := ["A", "B"], srcModTime := 100 },
        { upToDate := [("P", ⟨"P", false⟩), ("A", ⟨"A", false⟩),
            ("B", ⟨"B", false⟩), ("R", ⟨"R", false⟩)],
          compiles := ["P", "A", "B", "R"] }) := by decide
  have hc := (C7_compile_at_most_once envC7 rankC7 hpk hrank).2.2
    4 "R" ⟨[], []⟩ _ hinv0 hbp
  exact ⟨hpk, hrank, hinv0, _, hbp, rfl, hc.1, hc.2.2⟩

/-! ### Keep-original renaming (C2) -/

theorem ovLookup_insert_fold (k : String) :
    ∀ (names : List (Option Ident)) (m : OvMap),
    (names.all fun onm =>
      match onm with
      | some nm => !(nm.name = k)
      | none => true) = true →
    ovLookup (names.foldl
      (fun acc onm =>
        match onm with
        | some nm => ovInsert acc nm.name {}
        | none => acc) m) k = ovLookup m k := by
  intro names
  induction names with
  | nil => intro m _; rfl
  | cons onm rest ih =>
    intro m h
    simp only [List.all_cons, Bool.and_eq_true] at h
    match onm with
    | none => exact ih m h.2
    | some nm =>
      simp only [List.foldl_cons]
      rw [ih _ h.2, ovLookup_insert_ne]
      intro he
      rw [he] at h
      simp at h

theorem collectSpecOverrides_preserve (pd : Bool) (k : String)
    (os : Option Spec) (m : OvMap) (h : specAddsKey k os = false) :
    ovLookup (collectSpecOverrides pd m os) k = ovLookup m k := by
  match os with
  | none => rfl
  | some (.importSp im) => rfl
  | some (.typeSp n ds ty) =>
    simp only [specAddsKey, decide_eq_false_iff_not] at h
    simp only [collectSpecOverrides]
    rw [ovLookup_insert_ne]
    exact fun he => h he.symm
  | some (.valueSp names vs ds) =>
    simp only [collectSpecOverrides]
    apply ovLookup_insert_fold
    simp only [specAddsKey] at h
    rw [List.any_eq_false] at h
    rw [List.all_eq_true]
    intro onm honm
    have := h onm honm
    match onm with
    | none => rfl
    | some nm => simpa using this

theorem collectSpecOverrides_fold_preserve (pd : Bool) (k : String) :
    ∀ (specs : List (Option Spec)) (m : OvMap),
    (∀ os ∈ specs, specAddsKey k os = false) →
    ovLookup (specs.foldl (collectSpecOverrides pd) m) k = ovLookup m k := by
  intro specs
  induction specs with
  | nil => intro m _; rfl
  | cons os rest ih =>
    intro m h
    simp only [List.foldl_cons]
    rw [ih _ (fun o ho => h o (List.mem_cons_of_mem _ ho)),
      collectSpecOverrides_preserve pd k os m (h os (List.mem_cons_self _ _))]

theorem collectDeclOverrides_fold_preserve (k : String) :
    ∀ (ds : List (Option Decl)) (m : OvMap),
    (ds.all fun od => !(declAddsKey k od)) = true →
    ovLookup (ds.foldl collectDeclOverrides m) k = ovLookup m k := by
  intro ds
  induction ds with
  | nil => intro m _; rfl
  | cons od rest ih =>
    intro m h
    simp only [List.all_cons, Bool.and_eq_true] at h
    simp only [List.foldl_cons]
    rw [ih _ h.2]
    have h1 := h.1
    match od with
    | none => rfl
    | some (.funcD d) =>
      simp only [declAddsKey, Bool.not_eq_true', decide_eq_false_iff_not] at h1
      simp only [collectDeclOverrides]
      rw [ovLookup_insert_ne]
      exact fun he => h1 he.symm
    | some (.genD g) =>
      simp only [declAddsKey] at h1
      simp only [collectDeclOverrides]
      have hall : ∀ os ∈ g.specs, specAddsKey k os = false := by
        rw [Bool.not_eq_true', List.any_eq_false] at h1
        intro os hos
        exact Bool.eq_false_iff.mpr (h1 os hos)
      exact collectSpecOverrides_fold_preserve _ k g.specs m hall

theorem isFuncNamed_purgeOverlayDecl (z : String) (od : Option Decl)
    (h : isFuncNamed z (purgeOverlayDecl od) = true) :
    isFuncNamed z od = true := by
  match od with
  | none => simp [purgeOverlayDecl, isFuncNamed] at h
  | some (.genD g) =>
    simp only [purgeOverlayDecl] at h
    split at h <;> simp [isFuncNamed] at h
  | some (.funcD d) =>
    simp only [purgeOverlayDecl] at h
    split at h
    · simp [isFuncNamed] at h
    · exact h

theorem mangled_ne (nm : String) : ("_gopherjs_original_" ++ nm) ≠ nm := by
  intro h
  have hlen := congrArg String.length h
  rw [String.length_append] at hlen
  have h19 : ("_gopherjs_original_" : String).length = 19 := rfl
  omega

theorem mangled_cancel (a b : String)
    (h : ("_gopherjs_original_" ++ a) = ("_gopherjs_original_" ++ b)) :
    a = b := by
  have hd := congrArg String.data h
  rw [String.data_append, String.data_append] at hd
  exact String.ext (List.append_cancel_left hd)

/-- The name of any function declaration `augOrigDeclCh` outputs: the
input's own name, or the input's name behind the keep-original mangling
prefix. -/
theorem augOrigDeclCh_name (m : OvMap) (e d' : FuncDecl)
    (h : (augOrigDeclCh m (some (.funcD e))).1 = some (.funcD d')) :
    d'.name = e.name ∨ d'.name = "_gopherjs_original_" ++ e.name := by
  cases hk : ovLookup m (funcKey e) with
  | some info =>
    cases hs : info.overrideSignature with
    | some o =>
      rw [augOrigDeclCh_sig m e info o hk hs] at h
      simp only [Option.some.injEq, Decl.funcD.injEq] at h
      by_cases hko : info.keepOriginal = true
      · right
        rw [← h, hko]
        simp
      · left
        rw [← h]
        simp [hko]
    | none =>
      by_cases hko : info.keepOriginal = true
      · rw [augOrigDeclCh_keepOriginal m e info hk hko hs] at h
        simp only [Option.some.injEq, Decl.funcD.injEq] at h
        right
        rw [← h]
      · rw [augOrigDeclCh_removed m e info hk (by simpa using hko) hs] at h
        simp at h
  | none =>
    by_cases hl : 0 < (funcReceiverKey e).length
    · cases hr : ovLookup m (funcReceiverKey e) with
      | some info =>
        by_cases hpm : info.purgeMethods = true
        · rw [augOrigDeclCh_nokey_purged m e info hk hr hpm hl] at h
          simp at h
        · rw [augOrigDeclCh_nokey_nopurge m e info hk hr
            (by simpa using hpm)] at h
          simp only [Option.some.injEq, Decl.funcD.injEq] at h
          left
          rw [← h]
      | none =>
        rw [augOrigDeclCh_nokey_norecv m e hk hr] at h
        simp only [Option.some.injEq, Decl.funcD.injEq] at h
        left
        rw [← h]
    · rw [augOrigDeclCh_nokey_short m e hk hl] at h
      simp only [Option.some.injEq, Decl.funcD.injEq] at h
      left
      rw [← h]

/-- A declaration slot that is not a function named `nm` or its mangled
variant stays that way through `augOrigDeclCh` (provided `nm` itself is
not already mangled). -/
theorem augOrig_isFuncNamed_false (m : OvMap) (nm : String) (od : Option Decl)
    (hn1 : isFuncNamed nm od = false)
    (hn2 : isFuncNamed ("_gopherjs_original_" ++ nm) od = false)
    (hnmp : strHasPrefix "_gopherjs_original_" nm = false) :
    isFuncNamed nm ((augOrigDeclCh m od).1) = false ∧
    isFuncNamed ("_gopherjs_original_" ++ nm) ((augOrigDeclCh m od).1) =
      false := by
  match od with
  | none => exact ⟨rfl, rfl⟩
  | some (.genD g) => exact ⟨rfl, rfl⟩
  | some (.funcD e) =>
    simp only [isFuncNamed, decide_eq_false_iff_not] at hn1 hn2
    have key : ∀ d2 : FuncDecl,
        (augOrigDeclCh m (some (.funcD e))).1 = some (.funcD d2) →
        ¬ d2.name = nm ∧ ¬ d2.name = "_gopherjs_original_" ++ nm := by
      intro d2 hout
      rcases augOrigDeclCh_name m e d2 hout with hname | hname
      · rw [hname]
        exact ⟨hn1, hn2⟩
      · rw [hname]
        constructor
        · intro he
          have hp : strHasPrefix "_gopherjs_original_" nm = true := by
            rw [← he]
            exact strHasPrefix_append "_gopherjs_original_" e.name
          rw [hnmp] at hp
          exact Bool.noConfusion hp
        · intro he
          exact hn1 (mangled_cancel e.name nm he)
    constructor <;> (
      cases hout : (augOrigDeclCh m (some (.funcD e))).1 with
      | none => rfl
      | some dd =>
        cases dd with
        | genD g2 => rfl
        | funcD d2 =>
          simp only [isFuncNamed, decide_eq_false_iff_not]
          first
            | exact (key d2 hout).1
            | exact (key d2 hout).2)

/-- **C2.**  Keep-original renaming.  An overlay file declares `fo`, a
plain function named `nm` carrying the keep-original directive (and not
purged or signature-spliced itself); an original file declares `fd`, a
plain function under the same identity key `nm`.  Provided the rest of the
overlay declarations do not re-insert the key `nm` after `fo` and no other
declaration on either side is a function named `nm` or
`_gopherjs_original_<nm>` (and `nm` is not `init` and not itself mangled),
the merged output of `parseAndAugment` contains exactly one function
declaration named `nm` — the overlay's `fo` — and exactly one function
declaration under the mangled name — the original `fd` renamed, body and
all other fields intact. -/
theorem C2_keep_original (ip nm : String) (A B C D : List (Option Decl))
    (fo fd : FuncDecl)
    (hfon : fo.name = nm) (hfor : fo.recv = none)
    (hko : keepOriginalDir fo = true)
    (hnp : purgeDir fo.directives = false)
    (hns : overrideSignatureDir fo = false)
    (hfdn : fd.name = nm) (hfdr : fd.recv = none)
    (hni : nm ≠ "init")
    (hnmp : strHasPrefix "_gopherjs_original_" nm = false)
    (hB : (B.all fun od => !(declAddsKey nm od)) = true)
    (hABn : ((A ++ B).all fun od =>
      !(isFuncNamed nm od) &&
      !(isFuncNamed ("_gopherjs_original_" ++ nm) od)) = true)
    (hCDn : ((C ++ D).all fun od =>
      !(isFuncNamed nm od) &&
      !(isFuncNamed ("_gopherjs_original_" ++ nm) od)) = true) :
    ((parseAndAugment ip [⟨A ++ [some (Decl.funcD fo)] ++ B⟩]
        [⟨C ++ [some (Decl.funcD fd)] ++ D⟩]).flatMap
      (fun g => g.decls)).countP (isFuncNamed nm) = 1 ∧
    some (Decl.funcD fo) ∈ (parseAndAugment ip [⟨A ++ [some (Decl.funcD fo)] ++ B⟩]
        [⟨C ++ [some (Decl.funcD fd)] ++ D⟩]).flatMap (fun g => g.decls) ∧
    ((parseAndAugment ip [⟨A ++ [some (Decl.funcD fo)] ++ B⟩]
        [⟨C ++ [some (Decl.funcD fd)] ++ D⟩]).flatMap
      (fun g => g.decls)).countP
        (isFuncNamed ("_gopherjs_original_" ++ nm)) = 1 ∧
    some (.funcD { fd with name := "_gopherjs_original_" ++ nm }) ∈
      (parseAndAugment ip [⟨A ++ [some (Decl.funcD fo)] ++ B⟩]
        [⟨C ++ [some (Decl.funcD fd)] ++ D⟩]).flatMap (fun g => g.decls) := by
  -- Abbreviations and the collected override map.
  have hfokey : funcKey fo = nm := by
    unfold funcKey
    rw [hfor, hfon]
  have hfdkey : funcKey fd = nm := by
    unfold funcKey
    rw [hfdr, hfdn]
  have hlookM : ovLookup
      ((A ++ [some (Decl.funcD fo)] ++ B).foldl collectDeclOverrides []) nm =
      some { keepOriginal := true, overrideSignature := none } := by
    rw [List.foldl_append, collectDeclOverrides_fold_preserve nm B _ hB,
      List.foldl_append]
    show ovLookup (collectDeclOverrides
      (A.foldl collectDeclOverrides []) (some (Decl.funcD fo))) nm = _
    simp only [collectDeclOverrides, hfokey, hko, hns, Bool.false_eq_true,
      if_false]
    exact ovLookup_insert_self _ _ _
  have hlook : ovLookup
      (ovErase ((A ++ [some (Decl.funcD fo)] ++ B).foldl collectDeclOverrides [])
        "init") nm =
      some { keepOriginal := true, overrideSignature := none } := by
    rw [ovLookup_erase_ne _ _ _ hni]
    exact hlookM
  have hM2ne : ovErase
      ((A ++ [some (Decl.funcD fo)] ++ B).foldl collectDeclOverrides [])
      "init" ≠ [] := ovLookup_ne_nil _ _ _ hlook
  -- The pipeline takes the augmentation branch.
  have hout : parseAndAugment ip [⟨A ++ [some (Decl.funcD fo)] ++ B⟩]
      [⟨C ++ [some (Decl.funcD fd)] ++ D⟩] =
      [(augmentOverlayFile ⟨A ++ [some (Decl.funcD fo)] ++ B⟩ []).1] ++
      [augmentOriginalFile
        (augmentOriginalImports ip ⟨C ++ [some (Decl.funcD fd)] ++ D⟩)
        (ovErase ((A ++ [some (Decl.funcD fo)] ++ B).foldl collectDeclOverrides [])
          "init")] := by
    unfold parseAndAugment
    rw [if_pos]
    · rfl
    · show 0 < (ovErase
        ((A ++ [some (Decl.funcD fo)] ++ B).foldl collectDeclOverrides [])
        "init").length
      exact List.length_pos.mpr hM2ne
  have hflat : (parseAndAugment ip [⟨A ++ [some (Decl.funcD fo)] ++ B⟩]
      [⟨C ++ [some (Decl.funcD fd)] ++ D⟩]).flatMap (fun g => g.decls) =
      (augmentOverlayFile ⟨A ++ [some (Decl.funcD fo)] ++ B⟩ []).1.decls ++
      (augmentOriginalFile
        (augmentOriginalImports ip ⟨C ++ [some (Decl.funcD fd)] ++ D⟩)
        (ovErase ((A ++ [some (Decl.funcD fo)] ++ B).foldl collectDeclOverrides [])
          "init")).decls := by
    rw [hout]
    simp [List.flatMap_cons]
  -- Per-side name facts.
  have hABpair : ∀ od ∈ A ++ B, isFuncNamed nm od = false ∧
      isFuncNamed ("_gopherjs_original_" ++ nm) od = false := by
    intro od hod
    have h := List.all_eq_true.mp hABn od hod
    simpa [Bool.and_eq_true, Bool.not_eq_true'] using h
  have hCDpair : ∀ od ∈ C ++ D, isFuncNamed nm od = false ∧
      isFuncNamed ("_gopherjs_original_" ++ nm) od = false := by
    intro od hod
    have h := List.all_eq_true.mp hCDn od hod
    simpa [Bool.and_eq_true, Bool.not_eq_true'] using h
  -- The overlay side: fo survives the purge, nothing else matches.
  have hpfo : purgeOverlayDecl (some (Decl.funcD fo)) = some (Decl.funcD fo) := by
    simp [purgeOverlayDecl, hnp, hns]
  have hovCount : ∀ z : String,
      (augmentOverlayFile ⟨A ++ [some (Decl.funcD fo)] ++ B⟩ []).1.decls.countP
        (isFuncNamed z) =
      ((A ++ [some (Decl.funcD fo)] ++ B).map purgeOverlayDecl).countP
        (isFuncNamed z) := by
    intro z
    show (if (⟨A ++ [some (Decl.funcD fo)] ++ B⟩ : File).decls.any
        overlayDeclChanged then
        pruneImports (finalizeRemovals
          ⟨(⟨A ++ [some (Decl.funcD fo)] ++ B⟩ : File).decls.map
            purgeOverlayDecl⟩)
      else
        ⟨(⟨A ++ [some (Decl.funcD fo)] ++ B⟩ : File).decls.map
          purgeOverlayDecl⟩).decls.countP (isFuncNamed z) = _
    split
    · rw [countP_pruneImports (isFuncNamed z) rfl (fun gd => rfl),
        countP_finalize (isFuncNamed z) rfl (fun gd => rfl)]
    · rfl
  have hside : ∀ (L : List (Option Decl)) (z : String),
      (∀ od ∈ L, isFuncNamed z od = false) →
      (L.map purgeOverlayDecl).countP (isFuncNamed z) = 0 := by
    intro L z h
    rw [List.countP_eq_zero]
    intro x hx
    rcases List.mem_map.mp hx with ⟨od, hod, rfl⟩
    intro hq
    have h2 := isFuncNamed_purgeOverlayDecl z od hq
    rw [h od hod] at h2
    exact Bool.noConfusion h2
  have hmap3 : (A ++ [some (Decl.funcD fo)] ++ B).map purgeOverlayDecl =
      A.map purgeOverlayDecl ++ [some (Decl.funcD fo)] ++
        B.map purgeOverlayDecl := by
    rw [List.map_append, List.map_append]
    simp [hpfo]
  have hovnm : (augmentOverlayFile ⟨A ++ [some (Decl.funcD fo)] ++ B⟩
      []).1.decls.countP (isFuncNamed nm) = 1 := by
    rw [hovCount nm, hmap3, List.countP_append, List.countP_append]
    rw [hside A nm (fun od hod => (hABpair od (List.mem_append_left _ hod)).1),
      hside B nm (fun od hod => (hABpair od (List.mem_append_right _ hod)).1)]
    simp [List.countP_cons, isFuncNamed, hfon]
  have hovmg : (augmentOverlayFile ⟨A ++ [some (Decl.funcD fo)] ++ B⟩
      []).1.decls.countP (isFuncNamed ("_gopherjs_original_" ++ nm)) = 0 := by
    rw [hovCount _, hmap3, List.countP_append, List.countP_append]
    rw [hside A _ (fun od hod => (hABpair od (List.mem_append_left _ hod)).2),
      hside B _ (fun od hod => (hABpair od (List.mem_append_right _ hod)).2)]
    have : isFuncNamed ("_gopherjs_original_" ++ nm)
        (some (Decl.funcD fo)) = false := by
      simp only [isFuncNamed, hfon, decide_eq_false_iff_not]
      exact fun he => mangled_ne nm he.symm
    simp [List.countP_cons, this]
  -- The original side.
  have hkfd : ovLookup (ovErase
      ((A ++ [some (Decl.funcD fo)] ++ B).foldl collectDeclOverrides []) "init")
      (funcKey fd) =
      some { keepOriginal := true, overrideSignature := none } := by
    rw [hfdkey]
    exact hlook
  have hfdout : (augOrigDeclCh (ovErase
      ((A ++ [some (Decl.funcD fo)] ++ B).foldl collectDeclOverrides []) "init")
      (some (Decl.funcD fd))).1 =
      some (.funcD { fd with name := "_gopherjs_original_" ++ fd.name }) := by
    rw [augOrigDeclCh_keepOriginal _ fd _ hkfd rfl rfl]
  have horigCount : ∀ z : String,
      (augmentOriginalFile
        (augmentOriginalImports ip ⟨C ++ [some (Decl.funcD fd)] ++ D⟩)
        (ovErase ((A ++ [some (Decl.funcD fo)] ++ B).foldl collectDeclOverrides [])
          "init")).decls.countP (isFuncNamed z) =
      (C ++ [some (Decl.funcD fd)] ++ D).countP
        (fun od => isFuncNamed z ((augOrigDeclCh (ovErase
          ((A ++ [some (Decl.funcD fo)] ++ B).foldl collectDeclOverrides [])
          "init") od).1)) := by
    intro z
    have hqa : ∀ gd, (fun od => isFuncNamed z ((augOrigDeclCh (ovErase
        ((A ++ [some (Decl.funcD fo)] ++ B).foldl collectDeclOverrides [])
        "init") od).1)) (some (Decl.genD gd)) = false := fun gd => rfl
    have hstep : ∀ (f : File),
        (augmentOriginalFile f (ovErase
          ((A ++ [some (Decl.funcD fo)] ++ B).foldl collectDeclOverrides [])
          "init")).decls.countP (isFuncNamed z) =
        f.decls.countP (fun od => isFuncNamed z ((augOrigDeclCh (ovErase
          ((A ++ [some (Decl.funcD fo)] ++ B).foldl collectDeclOverrides [])
          "init") od).1)) := by
      intro f
      unfold augmentOriginalFile
      split
      · rw [countP_pruneImports (isFuncNamed z) rfl (fun gd => rfl),
          countP_finalize (isFuncNamed z) rfl (fun gd => rfl)]
        show ((f.decls.map _).map _).countP _ = _
        rw [List.map_map, List.countP_map]
        rfl
      · show ((f.decls.map _).map _).countP _ = _
        rw [List.map_map, List.countP_map]
        rfl
    rw [hstep]
    show (augmentOriginalImports ip
      ⟨C ++ [some (Decl.funcD fd)] ++ D⟩).decls.countP _ = _
    unfold augmentOriginalImports
    split
    · exact countP_mapFileImports _ _ hqa _
    · rfl
  have horignm : (augmentOriginalFile
      (augmentOriginalImports ip ⟨C ++ [some (Decl.funcD fd)] ++ D⟩)
      (ovErase ((A ++ [some (Decl.funcD fo)] ++ B).foldl collectDeclOverrides [])
        "init")).decls.countP (isFuncNamed nm) = 0 := by
    rw [horigCount nm, List.countP_append, List.countP_append]
    have hC : C.countP (fun od => isFuncNamed nm ((augOrigDeclCh (ovErase
        ((A ++ [some (Decl.funcD fo)] ++ B).foldl collectDeclOverrides [])
        "init") od).1)) = 0 := by
      rw [List.countP_eq_zero]
      intro od hod hq
      have h2 := (augOrig_isFuncNamed_false (ovErase
        ((A ++ [some (Decl.funcD fo)] ++ B).foldl collectDeclOverrides [])
        "init") nm od
        (hCDpair od (List.mem_append_left _ hod)).1
        (hCDpair od (List.mem_append_left _ hod)).2 hnmp).1
      rw [h2] at hq
      exact Bool.noConfusion hq
    have hD : D.countP (fun od => isFuncNamed nm ((augOrigDeclCh (ovErase
        ((A ++ [some (Decl.funcD fo)] ++ B).foldl collectDeclOverrides [])
        "init") od).1)) = 0 := by
      rw [List.countP_eq_zero]
      intro od hod hq
      have h2 := (augOrig_isFuncNamed_false (ovErase
        ((A ++ [some (Decl.funcD fo)] ++ B).foldl collectDeclOverrides [])
        "init") nm od
        (hCDpair od (List.mem_append_right _ hod)).1
        (hCDpair od (List.mem_append_right _ hod)).2 hnmp).1
      rw [h2] at hq
      exact Bool.noConfusion hq
    have hmid : isFuncNamed nm ((augOrigDeclCh (ovErase
        ((A ++ [some (Decl.funcD fo)] ++ B).foldl collectDeclOverrides [])
        "init") (some (Decl.funcD fd))).1) = false := by
      rw [hfdout]
      simp only [isFuncNamed, hfdn, decide_eq_false_iff_not]
      exact mangled_ne nm
    rw [hC, hD, List.countP_cons, List.countP_nil, hmid]
    simp
  have horigmg : (augmentOriginalFile
      (augmentOriginalImports ip ⟨C ++ [some (Decl.funcD fd)] ++ D⟩)
      (ovErase ((A ++ [some (Decl.funcD fo)] ++ B).foldl collectDeclOverrides [])
        "init")).decls.countP
      (isFuncNamed ("_gopherjs_original_" ++ nm)) = 1 := by
    rw [horigCount _, List.countP_append, List.countP_append]
    have hC : C.countP (fun od => isFuncNamed ("_gopherjs_original_" ++ nm) ((augOrigDeclCh (ovErase
        ((A ++ [some (Decl.funcD fo)] ++ B).foldl collectDeclOverrides [])
        "init") od).1)) = 0 := by
      rw [List.countP_eq_zero]
      intro od hod hq
      have h2 := (augOrig_isFuncNamed_false (ovErase
        ((A ++ [some (Decl.funcD fo)] ++ B).foldl collectDeclOverrides [])
        "init") nm od
        (hCDpair od (List.mem_append_left _ hod)).1
        (hCDpair od (List.mem_append_left _ hod)).2 hnmp).2
      rw [h2] at hq
      exact Bool.noConfusion hq
    have hD : D.countP (fun od => isFuncNamed ("_gopherjs_original_" ++ nm) ((augOrigDeclCh (ovErase
        ((A ++ [some (Decl.funcD fo)] ++ B).foldl collectDeclOverrides [])
        "init") od).1)) = 0 := by
      rw [List.countP_eq_zero]
      intro od hod hq
      have h2 := (augOrig_isFuncNamed_false (ovErase
        ((A ++ [some (Decl.funcD fo)] ++ B).foldl collectDeclOverrides [])
        "init") nm od
        (hCDpair od (List.mem_append_right _ hod)).1
        (hCDpair od (List.mem_append_right _ hod)).2 hnmp).2
      rw [h2] at hq
      exact Bool.noConfusion hq
    have hmid : isFuncNamed ("_gopherjs_original_" ++ nm)
        ((augOrigDeclCh (ovErase
          ((A ++ [some (Decl.funcD fo)] ++ B).foldl collectDeclOverrides [])
          "init") (some (Decl.funcD fd))).1) = true := by
      rw [hfdout]
      simp [isFuncNamed, hfdn]
    rw [hC, hD, List.countP_cons, List.countP_nil, hmid]
    simp
  -- Memberships.
  have hmemfo : some (Decl.funcD fo) ∈ (augmentOverlayFile
      ⟨A ++ [some (Decl.funcD fo)] ++ B⟩ []).1.decls := by
    have hmm : some (Decl.funcD fo) ∈
        (A ++ [some (Decl.funcD fo)] ++ B).map purgeOverlayDecl := by
      rw [hmap3]
      exact List.mem_append_left _ (List.mem_append_right _
        (List.mem_singleton_self _))
    show some (Decl.funcD fo) ∈ (if (⟨A ++ [some (Decl.funcD fo)] ++ B⟩ : File).decls.any
        overlayDeclChanged then
        pruneImports (finalizeRemovals
          ⟨(⟨A ++ [some (Decl.funcD fo)] ++ B⟩ : File).decls.map
            purgeOverlayDecl⟩)
      else
        ⟨(⟨A ++ [some (Decl.funcD fo)] ++ B⟩ : File).decls.map
          purgeOverlayDecl⟩).decls
    split
    · exact funcD_mem_pruneImports_of_mem fo _
        ((funcD_mem_finalize fo _).mpr hmm)
    · exact hmm
  have hmemfd : some (.funcD { fd with name := "_gopherjs_original_" ++ nm }) ∈
      (augmentOriginalFile
        (augmentOriginalImports ip ⟨C ++ [some (Decl.funcD fd)] ++ D⟩)
        (ovErase ((A ++ [some (Decl.funcD fo)] ++ B).foldl collectDeclOverrides [])
          "init")).decls := by
    apply augmentOriginalFile_mem_of _ _ (some (Decl.funcD fd))
    · exact (funcD_mem_augmentOriginalImports ip fd _).mpr
        (List.mem_append_left _ (List.mem_append_right _
          (List.mem_singleton_self _)))
    · rw [hfdout, hfdn]
  -- Assemble.
  rw [hflat]
  refine ⟨?_, ?_, ?_, ?_⟩
  · rw [List.countP_append, hovnm, horignm]
  · exact List.mem_append_left _ hmemfo
  · rw [List.countP_append, hovmg, horigmg]
  · exact List.mem_append_right _ hmemfd

/-- C2 witness: Scenario A — the overlay defines `F` (body `2`) with the
keep-original directive, the original defines `F` (body `1`); the merged
output has exactly one `F` (the overlay's) and exactly one
`_gopherjs_original_F` (the original, renamed, body intact). -/
theorem C2_keep_original_witness :
    keepOriginalDir { name := "F", body := [Expr.lit 2],
                      directives := ["gopherjs:keep-original"] } = true ∧
    ((parseAndAugment "pkg" [scenarioAOverlay] [scenarioAOriginal]).flatMap
      (fun g => g.decls)).countP (isFuncNamed "F") = 1 ∧
    some (.funcD { name := "F", body := [Expr.lit 2],
                   directives := ["gopherjs:keep-original"] }) ∈
      (parseAndAugment "pkg" [scenarioAOverlay] [scenarioAOriginal]).flatMap
        (fun g => g.decls) ∧
    ((parseAndAugment "pkg" [scenarioAOverlay] [scenarioAOriginal]).flatMap
      (fun g => g.decls)).countP (isFuncNamed "_gopherjs_original_F") = 1 ∧
    some (.funcD { name := "_gopherjs_original_F", body := [Expr.lit 1] }) ∈
      (parseAndAugment "pkg" [scenarioAOverlay] [scenarioAOriginal]).flatMap
        (fun g => g.decls) := by
  have h := C2_keep_original "pkg" "F" [] [] [] []
    { name := "F", body := [Expr.lit 2],
      directives := ["gopherjs:keep-original"] }
    { name := "F", body := [Expr.lit 1] }
    rfl rfl rfl rfl rfl rfl rfl (by decide) rfl rfl rfl rfl
  exact ⟨rfl, h.1, h.2.1, h.2.2.1, h.2.2.2⟩

end GopherJS
